import Mathlib

/-!
# Mandelbrot viewer (`src/mandelbrot.c`): embedding and verified properties

The C program is embedded shallowly.

* `double` values are modelled by exact rationals `ℚ` ("exact arithmetic"): every
  operation the program performs on doubles (`+ - * /`, comparison, `fabs`, `fmod`,
  conversion to an integer type) has an exact rational counterpart.
* The escape-time loop is embedded a second time in IEEE 754 binary64 arithmetic
  (`escape_loop_double`): round to nearest, ties to even, with subnormals, overflow to
  infinity and NaN.
* `uint64_t` values are natural numbers; an operation that can wrap is written with its
  wrap-around (`add64`, `dec64`).
* `char *pixels` is an offset (in bytes) into the frame buffer; a worker's effect is the
  list of byte writes it performs, in program order.
* `exit` is modelled by `none`.
* `malloc` is assumed to succeed (the failure path is `exit(1)`).
-/

namespace Mandelbrot

/-! ## Constants -/

/-- Constant `#define SCREEN_WIDTH 1280`. -/
def SCREEN_WIDTH : Nat := 1280

/-- Constant `#define SCREEN_HEIGHT 720`. -/
def SCREEN_HEIGHT : Nat := 720

/-- Constant `#define NUM_THREADS 6`. -/
def NUM_THREADS : Nat := 6

/-- The three compile-time constants of the program, gathered so that the rendering
functions can also be evaluated on small frames. -/
structure Screen where
  width : Nat
  height : Nat
  threads : Nat
  deriving Repr, DecidableEq

/-- The configuration the program is compiled with. -/
def screen : Screen := ⟨SCREEN_WIDTH, SCREEN_HEIGHT, NUM_THREADS⟩

/-- Number of values of a `uint64_t`. -/
def U64 : Nat := 2 ^ 64

/-- Sum `a + b` on `uint64_t`. -/
def add64 (a b : Nat) : Nat := (a + b) % U64

/-- Decrement `it--` on `uint64_t`: zero wraps to `2^64 - 1`. -/
def dec64 (a : Nat) : Nat := if a = 0 then U64 - 1 else a - 1

/-! ## Data model -/

/-- The `struct Coord`. -/
structure Coord where
  x : ℚ
  y : ℚ
  deriving Repr, DecidableEq

/-- One palette entry: the three bytes `color[0]`, `color[1]`, `color[2]`, each given by
its value as an unsigned byte. -/
structure Color where
  r : Nat
  g : Nat
  b : Nat
  deriving Repr, DecidableEq

/-- The `struct Game`, without the SDL handles. -/
structure Game where
  topleft_corner : Coord
  step : ℚ
  last_it : Nat
  current_it : Nat
  colors : List Color
  rendered : Int
  remake_colors : Int
  deriving Repr, DecidableEq

/-! ## Palette: `hsv_to_rgb`, `make_colors` -/

/-- Conversion of a `double` to an integer: the fractional part is discarded. -/
def trunc (q : ℚ) : Int := if 0 ≤ q then ⌊q⌋ else ⌈q⌉

/-- C `fmod`: the remainder of `a / b` with the quotient truncated toward zero. -/
def fmod (a b : ℚ) : ℚ := a - b * (trunc (a / b) : ℚ)

/-- C `fabs`. -/
def fabs (a : ℚ) : ℚ := if a < 0 then -a else a

/-- Store of a `double` into a `char`: the integer part, kept as the byte that is stored
(its value read as an unsigned byte, which is how the RGB24 texture reads it). -/
def to_byte (q : ℚ) : Nat := (trunc q % 256).toNat

/-- Function `hsv_to_rgb(h, s, v, color)`; the result is the three bytes written to `color`. -/
def hsv_to_rgb (h s v : ℚ) : Color :=
  let c := v * s
  let x := c * (1 - fabs (fmod (h / 60) 2 - 1))
  let m := v - c
  let rgb : ℚ × ℚ × ℚ :=
    if h < 60 then (c, x, 0)
    else if h < 120 then (x, c, 0)
    else if h < 180 then (0, c, x)
    else if h < 240 then (0, x, c)
    else if h < 300 then (x, 0, c)
    else (c, 0, x)
  ⟨to_byte ((rgb.1 + m) * 255), to_byte ((rgb.2.1 + m) * 255), to_byte ((rgb.2.2 + m) * 255)⟩

/-- Body of the loop of `make_colors` for index `i`, with `n = game->current_it`.
The test `i == game->current_it - 1` is only reached with `i < n`, where `n - 1` does not
wrap. -/
def make_color (n i : Nat) : Color :=
  let h : ℚ := (1 - (i : ℚ) / (n : ℚ)) * 255
  let s : ℚ := 1
  let v : ℚ := if i = n - 1 then 0 else 1
  hsv_to_rgb h s v

/-- Function `make_colors(game)`. The first component is the function's `static int initialized`:
on the first call the old palette is not released and `last_it` is left alone, on later
calls `last_it` is set to `current_it`. The loop `for (i = 0; i < current_it; i++)` fills
entry `i` with `make_color current_it i`. -/
def make_colors (initialized : Bool) (game : Game) : Bool × Game :=
  let game1 : Game := if initialized then { game with last_it := game.current_it } else game
  (true, { game1 with colors := (List.range game1.current_it).map (make_color game1.current_it) })

/-! ## Escape-time loop of `render_thread` -/

/-- The loop `for (; it < current_it; it++) { ... }` of `render_thread` at the point
`(x, y)`. The first argument is the number of iterations still allowed,
`current_it - it`; the result is the value of `it` when the loop is left (after the
`it++; break;` when the threshold is crossed). -/
def escape_loop (x y : ℚ) : Nat → Nat → ℚ → ℚ → Nat
  | 0, it, _, _ => it
  | rem + 1, it, zx, zy =>
    let zx2 := (zx * zx - zy * zy) + x
    let zy2 := (zx * zy + zy * zx) + y
    if zx2 * zx2 + zy2 * zy2 > 4 then it + 1
    else escape_loop x y rem (it + 1) zx2 zy2

/-- Value of `it` on leaving the loop, started with `it = 0`, `zx = zy = 0`. -/
def escape_count (x y : ℚ) (n : Nat) : Nat := escape_loop x y n 0 0 0

/-- Value of `it` after the `it--` that follows the loop: the palette index. -/
def escape_index (x y : ℚ) (n : Nat) : Nat := dec64 (escape_count x y n)

/-! ## Escape-time loop of `render_thread` in double arithmetic -/

/-- A value of type `double` (IEEE 754 binary64): a finite number, an infinity or NaN.
The sign of zero is not kept: no operation of the loop (`+`, `-`, `*`, `>`) tells the two
zeros apart. -/
inductive F64 where
  | finite (q : ℚ)
  | pinf
  | ninf
  | nan
  deriving Repr, DecidableEq

/-- Rounding of a rational to the nearest integer, ties to the even one. -/
def round_half_even (r : ℚ) : Int :=
  if r - (⌊r⌋ : ℚ) < 1 / 2 then ⌊r⌋
  else if 1 / 2 < r - (⌊r⌋ : ℚ) then ⌊r⌋ + 1
  else if ⌊r⌋ % 2 = 0 then ⌊r⌋ else ⌊r⌋ + 1

/-- Exponent of the unit in the last place of binary64 at `q ≠ 0`: 52 below the binade of
`q`, and `-1074` throughout the subnormal range. -/
def ulp_exp (q : ℚ) : Int := max (Int.log 2 |q|) (-1022) - 52

/-- Rounding of `q` to the nearest multiple of its unit in the last place, ties to even
(exponent range unbounded above). -/
def round_to_grid (q : ℚ) : ℚ :=
  if q = 0 then 0 else (round_half_even (q / (2 : ℚ) ^ ulp_exp q) : ℚ) * (2 : ℚ) ^ ulp_exp q

/-- The binary64 result of an operation whose exact result is `q`: round to nearest, ties
to even, overflow to infinity. -/
def round64 (q : ℚ) : F64 :=
  if (2 : ℚ) ^ (1024 : Nat) ≤ round_to_grid q then F64.pinf
  else if round_to_grid q ≤ -(2 : ℚ) ^ (1024 : Nat) then F64.ninf
  else F64.finite (round_to_grid q)

/-- Unary minus on doubles. -/
def F64.neg : F64 → F64
  | F64.finite a => F64.finite (-a)
  | F64.pinf => F64.ninf
  | F64.ninf => F64.pinf
  | F64.nan => F64.nan

/-- Operator `+` on doubles: the exact sum of finite operands, rounded; the IEEE rules
for infinities and NaN. -/
def F64.add : F64 → F64 → F64
  | F64.finite a, F64.finite b => round64 (a + b)
  | F64.nan, _ => F64.nan
  | _, F64.nan => F64.nan
  | F64.pinf, F64.ninf => F64.nan
  | F64.ninf, F64.pinf => F64.nan
  | F64.pinf, _ => F64.pinf
  | _, F64.pinf => F64.pinf
  | F64.ninf, _ => F64.ninf
  | _, F64.ninf => F64.ninf

/-- Operator `-` on doubles: `a - b` is `a + (-b)`. -/
def F64.sub (a b : F64) : F64 := F64.add a (F64.neg b)

/-- Sign of a double: `some true` negative, `some false` positive, `none` zero or NaN. -/
def F64.negative : F64 → Option Bool
  | F64.finite a => if a = 0 then none else some (decide (a < 0))
  | F64.pinf => some false
  | F64.ninf => some true
  | F64.nan => none

/-- Operator `*` on doubles: the exact product of finite operands, rounded; an infinity
times zero is NaN, otherwise an infinity with the product of the signs. -/
def F64.mul : F64 → F64 → F64
  | F64.finite a, F64.finite b => round64 (a * b)
  | F64.nan, _ => F64.nan
  | _, F64.nan => F64.nan
  | a, b =>
    match F64.negative a, F64.negative b with
    | some s, some t => if s = t then F64.pinf else F64.ninf
    | _, _ => F64.nan

/-- Operator `>` on doubles; false whenever an operand is NaN. -/
def F64.gt : F64 → F64 → Bool
  | F64.finite a, F64.finite b => decide (a > b)
  | F64.nan, _ => false
  | _, F64.nan => false
  | F64.pinf, F64.pinf => false
  | F64.pinf, _ => true
  | _, F64.pinf => false
  | F64.ninf, _ => false
  | _, F64.ninf => true

/-- The loop `for (; it < current_it; it++) { ... }` of `render_thread` at the point
`(x, y)`, as `escape_loop` but in double arithmetic: every `*`, `+`, `-` is rounded to
binary64 on its own (no extended precision, no fused multiply-add) and the test is the
double comparison `zx*zx + zy*zy > 4.0`. -/
def escape_loop_double (x y : F64) : Nat → Nat → F64 → F64 → Nat
  | 0, it, _, _ => it
  | rem + 1, it, zx, zy =>
    let zx2 := F64.add (F64.sub (F64.mul zx zx) (F64.mul zy zy)) x
    let zy2 := F64.add (F64.add (F64.mul zx zy) (F64.mul zy zx)) y
    if F64.gt (F64.add (F64.mul zx2 zx2) (F64.mul zy2 zy2)) (F64.finite 4) = true then it + 1
    else escape_loop_double x y rem (it + 1) zx2 zy2

/-- Value of `it` on leaving the loop in double arithmetic, started with `it = 0`,
`zx = zy = 0`. -/
def escape_count_double (x y : F64) (n : Nat) : Nat :=
  escape_loop_double x y n 0 (F64.finite 0) (F64.finite 0)

/-- Value of `it` after the `it--` that follows the loop, in double arithmetic. -/
def escape_index_double (x y : F64) (n : Nat) : Nat := dec64 (escape_count_double x y n)

/-- The value is one a `double` can hold: a finite value is unchanged by rounding. -/
def F64.is_double : F64 → Prop
  | F64.finite q => round64 q = F64.finite q
  | _ => True

/-! ## Workers: `render_thread` -/

/-- One byte stored through `pixels`. -/
structure Write where
  addr : Nat
  val : Nat
  deriving Repr, DecidableEq

/-- The `struct ThreadArg`; `pixels` is the offset of the band in the frame buffer. -/
structure ThreadArg where
  game : Game
  pixels : Nat
  left_corner : Coord
  num_rows : Nat
  deriving Repr, DecidableEq

/-- The inner loop `for (i = 0; i < SCREEN_WIDTH; i++, pixels++)` of `render_thread` on
the row of ordinate `y`. Arguments: columns still to do, current `x`, current `pixels`.
Result: the writes in order, and `x` and `pixels` after the loop; `none` when
`colors[it]` is read outside the palette. -/
def render_row (game : Game) (y : ℚ) : Nat → ℚ → Nat → Option (List Write × ℚ × Nat)
  | 0, x, pixels => some ([], x, pixels)
  | cols + 1, x, pixels =>
    match game.colors[escape_index x y game.current_it]? with
    | none => none
    | some color =>
      match render_row game y cols (x + game.step) (pixels + 1 + 1 + 1) with
      | none => none
      | some (ws, x', pixels') =>
        some (⟨pixels, color.r⟩ :: ⟨pixels + 1, color.g⟩ :: ⟨pixels + 1 + 1, color.b⟩ :: ws,
          x', pixels')

/-- The outer loop `for (j = 0; j < num_rows; j++)` of `render_thread`. Arguments: rows
still to do, current `y`, current `pixels`. Every row starts at `x = left_corner.x`. -/
def render_rows (sc : Screen) (args : ThreadArg) : Nat → ℚ → Nat → Option (List Write)
  | 0, _, _ => some []
  | rows + 1, y, pixels =>
    match render_row args.game y sc.width args.left_corner.x pixels with
    | none => none
    | some (ws, _, pixels') =>
      match render_rows sc args rows (y + args.game.step) pixels' with
      | none => none
      | some ws' => some (ws ++ ws')

/-- Function `render_thread(args)`: the bytes the worker stores, in order. -/
def render_thread (sc : Screen) (args : ThreadArg) : Option (List Write) :=
  render_rows sc args args.num_rows args.left_corner.y args.pixels

/-! ## Dispatcher: `render_threaded` -/

/-- The loop `for (i = 0; i < NUM_THREADS; i++)` of `render_threaded` that fills
`args[i]`. Arguments: bands still to do, `i`, and the running `num_rows`, `y`, `pixels`. -/
def thread_args (sc : Screen) (game : Game) : Nat → Nat → Nat → ℚ → Nat → List ThreadArg
  | 0, _, _, _, _ => []
  | todo + 1, i, num_rows, y, pixels =>
    let num_rows1 := if i = sc.threads - 1 then num_rows + sc.height % sc.threads else num_rows
    ⟨game, pixels, ⟨game.topleft_corner.x, y⟩, num_rows1⟩ ::
      thread_args sc game todo (i + 1) num_rows1 (y + game.step * (num_rows1 : ℚ))
        (pixels + num_rows1 * sc.width * 3)

/-- The `args` array built by `render_threaded(game, pixels)`. -/
def bands (sc : Screen) (game : Game) (pixels : Nat) : List ThreadArg :=
  thread_args sc game sc.threads 0 (sc.height / sc.threads) game.topleft_corner.y pixels

/-- Runs the workers of the given bands; the result lists the writes of each worker. -/
def run_threads (sc : Screen) : List ThreadArg → Option (List (List Write))
  | [] => some []
  | a :: rest =>
    match render_thread sc a with
    | none => none
    | some ws =>
      match run_threads sc rest with
      | none => none
      | some wss => some (ws :: wss)

/-- Function `render_threaded(game, pixels)`: the writes of each of the workers, by band. The
workers are joined before the function returns. -/
def render_threaded (sc : Screen) (game : Game) (pixels : Nat) : Option (List (List Write)) :=
  run_threads sc (bands sc game pixels)

/-- A frame buffer: the byte stored at each offset. -/
abbrev Buffer := Nat → Nat

/-- Effect of a sequence of writes on a buffer. -/
def apply_writes (buf : Buffer) : List Write → Buffer
  | [] => buf
  | w :: ws => apply_writes (fun a => if a = w.addr then w.val else buf a) ws

/-- The frame buffer after `render_threaded(game, pixels)`, the workers' writes taken band
after band. -/
def render_frame (sc : Screen) (game : Game) (pixels : Nat) (buf : Buffer) : Option Buffer :=
  (render_threaded sc game pixels).map (fun wss => apply_writes buf wss.flatten)

/-! ## Input: `input` -/

/-- Value of `SDL_BUTTON_LEFT` in the SDL headers. -/
def SDL_BUTTON_LEFT : Nat := 1

/-- Value of `SDL_BUTTON_RIGHT` in the SDL headers. -/
def SDL_BUTTON_RIGHT : Nat := 3

/-- Key code `SDLK_n`, the character code of `n`. -/
def SDLK_n : Int := 110

/-- Key code `SDLK_m`, the character code of `m`. -/
def SDLK_m : Int := 109

/-- An `SDL_Event` as far as `input` looks at it. -/
inductive Event where
  | mouseButtonDown (button : Nat) (x y : Int)
  | keyDown (sym : Int)
  | quit
  | other
  deriving Repr, DecidableEq

/-- Body of the `while (SDL_PollEvent(&event))` loop of `input` for one event; `none` is
`exit(0)`. -/
def handle_event (game : Game) : Event → Option Game
  | Event.mouseButtonDown button x y =>
    let game1 : Game :=
      if button = SDL_BUTTON_LEFT then
        { game with
          topleft_corner :=
            ⟨game.topleft_corner.x + game.step * ((x : ℚ) - (SCREEN_WIDTH : ℚ) / 4),
             game.topleft_corner.y + game.step * ((y : ℚ) - (SCREEN_HEIGHT : ℚ) / 4)⟩
          step := game.step / 2 }
      else if button = SDL_BUTTON_RIGHT then
        { game with
          topleft_corner :=
            ⟨game.topleft_corner.x - game.step * (SCREEN_WIDTH : ℚ) / 2,
             game.topleft_corner.y - game.step * (SCREEN_HEIGHT : ℚ) / 2⟩
          step := game.step * 2 }
      else game
    some { game1 with rendered := 0 }
  | Event.keyDown sym =>
    let game1 : Game :=
      if sym = SDLK_n then
        if game.current_it > 100 then { game with current_it := game.current_it - 100 }
        else if game.current_it > 10 then { game with current_it := 10 }
        else game
      else if sym = SDLK_m then
        if game.current_it = 10 then { game with current_it := 100 }
        else { game with current_it := add64 game.current_it 100 }
      else game
    some { game1 with remake_colors := 1, rendered := 0 }
  | Event.quit => none
  | Event.other => some game

/-- Function `input(game)` on the events that `SDL_PollEvent` delivers, in order. -/
def input (game : Game) : List Event → Option Game
  | [] => some game
  | e :: es =>
    match handle_event game e with
    | none => none
    | some game1 => input game1 es

/-- The state `init` sets up, before its call of `make_colors`. -/
def init_game : Game :=
  { topleft_corner := ⟨-5 / 2, -1⟩
    step := 2 / (SCREEN_HEIGHT : ℚ)
    last_it := 100
    current_it := 100
    colors := []
    rendered := 0
    remake_colors := 0 }

/-- Function `init()`: the `static` flag of `make_colors` and the game state it returns. -/
def init : Bool × Game :=
  let r := make_colors false init_game
  (r.1, { r.2 with rendered := 0, remake_colors := 0 })


/-! ## Frame pipeline: `update`, `main` -/

/-- Outcome of one call of `update`: the `static` flag of `make_colors`, the game state
after the call and, when the call rendered, the game state `render_threaded` was called
with together with its result (`none` when a worker read outside the palette). -/
structure Tick where
  initialized : Bool
  game : Game
  render : Option (Game × Option (List (List Write)))

/-- Function `update(game)`, with `events` the events `SDL_PollEvent` delivers if `input`
is called; `none` is `exit(0)` from `input`. When `rendered` is set only `input` runs.
Otherwise the palette is rebuilt if `remake_colors` is set (and the flag cleared),
`render_threaded` is called on the locked texture (offset 0 of the buffer; the lock is
assumed to succeed, its failure path is `exit(1)`) and `rendered` is set to 1. -/
def update (initialized : Bool) (game : Game) (events : List Event) : Option Tick :=
  if game.rendered ≠ 0 then
    match input game events with
    | none => none
    | some game1 => some ⟨initialized, game1, none⟩
  else
    let st : Bool × Game :=
      if game.remake_colors ≠ 0 then
        ((make_colors initialized game).1,
          { (make_colors initialized game).2 with remake_colors := 0 })
      else (initialized, game)
    some ⟨st.1, { st.2 with rendered := 1 }, some (st.2, render_threaded screen st.2 0)⟩

/-- The loop `for (;;) { update(game); draw(game); }` of `main`, run for as many ticks as
there are entries in the list (entry `k` holds the events pending at tick `k`), or until
`exit`. The result lists the outcome of every tick. -/
def main_loop (initialized : Bool) (game : Game) : List (List Event) → List Tick
  | [] => []
  | events :: rest =>
    match update initialized game events with
    | none => []
    | some t => t :: main_loop t.initialized t.game rest

/-- The bound is 10 or a positive multiple of 100, and `budget` further increase-detail
events cannot make it wrap around. -/
def Game.bound_ok (budget : Nat) (game : Game) : Prop :=
  (game.current_it = 10 ∨ (game.current_it % 100 = 0 ∧ 100 ≤ game.current_it)) ∧
  game.current_it + 100 * budget < 2 ^ 64

/-- The palette has the length of the bound, or is marked for rebuilding. -/
def Game.palette_ok (game : Game) : Prop :=
  game.colors.length = game.current_it ∨ game.remake_colors ≠ 0

/-! ## Reference definitions (from the specification's wording) -/

/-- The map `z ↦ z² + c` on complex numbers given by real and imaginary part. -/
def sq_add (z c : ℚ × ℚ) : ℚ × ℚ := (z.1 * z.1 - z.2 * z.2 + c.1, 2 * z.1 * z.2 + c.2)

/-- The orbit `z_0 = 0`, `z_{k+1} = z_k² + c`. -/
def orbit (c : ℚ × ℚ) : Nat → ℚ × ℚ
  | 0 => (0, 0)
  | k + 1 => sq_add (orbit c k) c

/-- The squared modulus `|z|²`. -/
def norm_sq (z : ℚ × ℚ) : ℚ := z.1 * z.1 + z.2 * z.2

/-- The threshold is crossed by step `k`: `|z_{k+1}|² > 4`. -/
def crosses (c : ℚ × ℚ) (k : Nat) : Prop := norm_sq (orbit c (k + 1)) > 4

instance (c : ℚ × ℚ) (k : Nat) : Decidable (crosses c k) := by
  unfold crosses; infer_instance

/-- Channel `ch` (0, 1, 2) of a palette entry: `color[ch]`. -/
def channel (color : Color) : Nat → Nat
  | 0 => color.r
  | 1 => color.g
  | _ => color.b

/-- Byte `ch` of the palette entry of the point `(x, y)`:
`colors[index((x, y), current_it)][ch]` (0 when the index is outside the palette). -/
def pixel_value (game : Game) (x y : ℚ) (ch : Nat) : Nat :=
  match game.colors[escape_index x y game.current_it]? with
  | some color => channel color ch
  | none => 0

/-- The single-pass reference frame for a buffer that starts at offset `pixels`: the byte
at offset `a` belongs to pixel number `(a - pixels) / 3`, in row-major order, whose
coordinate is `origin + (col * step, row * step)`. -/
def reference_byte (sc : Screen) (game : Game) (pixels : Nat) (a : Nat) : Nat :=
  let k := (a - pixels) / 3
  pixel_value game
    (game.topleft_corner.x + ((k % sc.width : Nat) : ℚ) * game.step)
    (game.topleft_corner.y + ((k / sc.width : Nat) : ℚ) * game.step)
    ((a - pixels) % 3)

/-- The palette is as long as the bound, and the bound is at least 1. -/
def Game.wf (game : Game) : Prop := game.colors.length = game.current_it ∧ 1 ≤ game.current_it

/-- A band's bytes agree with `f`: the byte of channel `ch` of the pixel in column `i` of
the band's row `j` is the palette byte of the point `(x + i * step, y + j * step)`. -/
def Agrees (sc : Screen) (game : Game) (f : Nat → Nat) (p : Nat) (x y : ℚ) (rows : Nat) : Prop :=
  ∀ j, j < rows → ∀ i, i < sc.width → ∀ ch, ch < 3 →
    f (p + 3 * (j * sc.width + i) + ch) =
      pixel_value game (x + (i : ℚ) * game.step) (y + (j : ℚ) * game.step) ch

/-- The write that stores `f a` at offset `a`. -/
def write_of (f : Nat → Nat) (a : Nat) : Write := ⟨a, f a⟩

/-- The writes of one band when its bytes are given by `f`: `num_rows * width * 3`
consecutive offsets from `pixels`, in increasing order. -/
def band_writes (sc : Screen) (f : Nat → Nat) (args : ThreadArg) : List Write :=
  (List.range' args.pixels (args.num_rows * sc.width * 3)).map (write_of f)



/-! ## Escape-time loop: bounds and characterisation -/

theorem escape_loop_le (x y : ℚ) (rem : Nat) :
    ∀ (it : Nat) (zx zy : ℚ), escape_loop x y rem it zx zy ≤ it + rem := by
  induction rem with
  | zero => intro it zx zy; simp [escape_loop]
  | succ rem ih =>
    intro it zx zy
    simp only [escape_loop]
    split
    · omega
    · have := ih (it + 1) ((zx * zx - zy * zy) + x) ((zx * zy + zy * zx) + y)
      omega

theorem escape_loop_ge (x y : ℚ) (rem : Nat) :
    ∀ (it : Nat) (zx zy : ℚ), it ≤ escape_loop x y rem it zx zy := by
  induction rem with
  | zero => intro it zx zy; simp [escape_loop]
  | succ rem ih =>
    intro it zx zy
    simp only [escape_loop]
    split
    · omega
    · have := ih (it + 1) ((zx * zx - zy * zy) + x) ((zx * zy + zy * zx) + y)
      omega

theorem escape_loop_pos (x y : ℚ) (rem it : Nat) (zx zy : ℚ) :
    it + 1 ≤ escape_loop x y (rem + 1) it zx zy := by
  simp only [escape_loop]
  split
  · omega
  · exact escape_loop_ge x y rem (it + 1) _ _

theorem escape_count_bounds (x y : ℚ) (n : Nat) (hn : 1 ≤ n) :
    1 ≤ escape_count x y n ∧ escape_count x y n ≤ n := by
  obtain ⟨m, rfl⟩ : ∃ m, n = m + 1 := ⟨n - 1, by omega⟩
  constructor
  · simpa [escape_count] using escape_loop_pos x y m 0 0 0
  · simpa [escape_count] using escape_loop_le x y (m + 1) 0 0 0

theorem escape_index_lt (x y : ℚ) (n : Nat) (hn : 1 ≤ n) : escape_index x y n < n := by
  have h := escape_count_bounds x y n hn
  unfold escape_index dec64
  rw [if_neg (by omega)]
  omega

theorem escape_index_eq (x y : ℚ) (n : Nat) (hn : 1 ≤ n) :
    escape_index x y n = escape_count x y n - 1 := by
  have h := escape_count_bounds x y n hn
  unfold escape_index dec64
  rw [if_neg (by omega)]

theorem crosses_iff (x y : ℚ) (k : Nat) :
    crosses (x, y) k ↔
      (((orbit (x, y) k).1 * (orbit (x, y) k).1 - (orbit (x, y) k).2 * (orbit (x, y) k).2) + x) *
        (((orbit (x, y) k).1 * (orbit (x, y) k).1 - (orbit (x, y) k).2 * (orbit (x, y) k).2) + x) +
      (((orbit (x, y) k).1 * (orbit (x, y) k).2 + (orbit (x, y) k).2 * (orbit (x, y) k).1) + y) *
        (((orbit (x, y) k).1 * (orbit (x, y) k).2 + (orbit (x, y) k).2 * (orbit (x, y) k).1) + y)
        > 4 := by
  have e : (orbit (x, y) k).1 * (orbit (x, y) k).2 + (orbit (x, y) k).2 * (orbit (x, y) k).1
      = 2 * (orbit (x, y) k).1 * (orbit (x, y) k).2 := by ring
  simp only [crosses, norm_sq, orbit, sq_add, e]

theorem orbit_succ_eq (x y : ℚ) (k : Nat) :
    orbit (x, y) (k + 1) =
      (((orbit (x, y) k).1 * (orbit (x, y) k).1 - (orbit (x, y) k).2 * (orbit (x, y) k).2) + x,
       ((orbit (x, y) k).1 * (orbit (x, y) k).2 + (orbit (x, y) k).2 * (orbit (x, y) k).1) + y) := by
  simp only [orbit, sq_add]
  congr 1
  ring

/-- The loop entered at step `k` of the orbit with `it = k`: it leaves with `j + 1` at the
first crossing step `j`, or with `k + rem` if no step in `[k, k + rem)` crosses. -/
theorem escape_loop_orbit (x y : ℚ) (rem : Nat) :
    ∀ k : Nat,
      (∃ j, k ≤ j ∧ j < k + rem ∧ crosses (x, y) j ∧ (∀ i, k ≤ i → i < j → ¬ crosses (x, y) i) ∧
          escape_loop x y rem k (orbit (x, y) k).1 (orbit (x, y) k).2 = j + 1) ∨
      ((∀ i, k ≤ i → i < k + rem → ¬ crosses (x, y) i) ∧
          escape_loop x y rem k (orbit (x, y) k).1 (orbit (x, y) k).2 = k + rem) := by
  induction rem with
  | zero =>
    intro k
    right
    exact ⟨fun i h1 h2 => by omega, by simp [escape_loop]⟩
  | succ rem ih =>
    intro k
    by_cases hc : crosses (x, y) k
    · left
      refine ⟨k, le_refl _, by omega, hc, fun i h1 h2 => by omega, ?_⟩
      simp only [escape_loop]
      rw [if_pos ((crosses_iff x y k).1 hc)]
    · have step : escape_loop x y (rem + 1) k (orbit (x, y) k).1 (orbit (x, y) k).2
          = escape_loop x y rem (k + 1) (orbit (x, y) (k + 1)).1 (orbit (x, y) (k + 1)).2 := by
        simp only [escape_loop]
        rw [if_neg (fun h => hc ((crosses_iff x y k).2 h)), orbit_succ_eq]
      rw [step]
      rcases ih (k + 1) with ⟨j, h1, h2, h3, h4, h5⟩ | ⟨h1, h2⟩
      · left
        refine ⟨j, by omega, by omega, h3, ?_, h5⟩
        intro i hi1 hi2
        by_cases hik : i = k
        · subst hik; exact hc
        · exact h4 i (by omega) hi2
      · right
        refine ⟨?_, by rw [h2]; omega⟩
        intro i hi1 hi2
        by_cases hik : i = k
        · subst hik; exact hc
        · exact h1 i (by omega) (by omega)

/-- C1: for every point `(x, y)` and every bound `n ≥ 1` the escape-time loop of
`render_thread` is left with a count in `[1, n]`; the palette index, the count minus one,
is in `[0, n - 1]`, and `colors[it]` is inside every palette of length `n`. -/
theorem C1_escape_index_in_bounds (x y : ℚ) (n : Nat) (hn : 1 ≤ n) :
    1 ≤ escape_count x y n ∧ escape_count x y n ≤ n ∧
    escape_index x y n = escape_count x y n - 1 ∧
    escape_index x y n ≤ n - 1 ∧
    ∀ colors : List Color, colors.length = n →
      ∃ color, colors[escape_index x y n]? = some color := by
  have hb := escape_count_bounds x y n hn
  have hlt := escape_index_lt x y n hn
  refine ⟨hb.1, hb.2, escape_index_eq x y n hn, by omega, ?_⟩
  intro colors hlen
  have h : escape_index x y n < colors.length := by omega
  exact ⟨colors[escape_index x y n], List.getElem?_eq_getElem h⟩

theorem C1_escape_index_in_bounds_witness :
    1 ≤ 10 ∧
    (1 ≤ escape_count (1 / 2) (1 / 2) 10 ∧ escape_count (1 / 2) (1 / 2) 10 ≤ 10 ∧
    escape_index (1 / 2) (1 / 2) 10 = escape_count (1 / 2) (1 / 2) 10 - 1 ∧
    escape_index (1 / 2) (1 / 2) 10 ≤ 10 - 1 ∧
    ∀ colors : List Color, colors.length = 10 →
      ∃ color, colors[escape_index (1 / 2) (1 / 2) 10]? = some color) :=
  ⟨by decide, C1_escape_index_in_bounds (1 / 2) (1 / 2) 10 (by decide)⟩

/-- C2: with `z_0 = 0`, `z_{k+1} = z_k² + c` in exact arithmetic and `n ≥ 1`, the index
computed by the escape-time loop is the least `k < n` with `|z_{k+1}|² > 4` when there is
one, and `n - 1` when there is none. -/
theorem C2_escape_index_least_crossing (x y : ℚ) (n : Nat) (hn : 1 ≤ n) :
    ((∃ k, k < n ∧ crosses (x, y) k) →
      escape_index x y n < n ∧ crosses (x, y) (escape_index x y n) ∧
      ∀ j, j < escape_index x y n → ¬ crosses (x, y) j) ∧
    ((∀ k, k < n → ¬ crosses (x, y) k) → escape_index x y n = n - 1) := by
  have hidx := escape_index_eq x y n hn
  have hloop := escape_loop_orbit x y n 0
  simp only [orbit, Nat.zero_add, Nat.zero_le, true_and, forall_true_left] at hloop
  change (∃ j, j < n ∧ crosses (x, y) j ∧ (∀ i, i < j → ¬ crosses (x, y) i) ∧
      escape_count x y n = j + 1) ∨
    ((∀ i, i < n → ¬ crosses (x, y) i) ∧ escape_count x y n = n) at hloop
  constructor
  · rintro ⟨k, hk, hck⟩
    rcases hloop with ⟨j, h1, h2, h3, h4⟩ | ⟨h1, _⟩
    · have e : escape_index x y n = j := by rw [hidx, h4]; rfl
      rw [e]
      exact ⟨h1, h2, h3⟩
    · exact absurd hck (h1 k hk)
  · intro hnone
    rcases hloop with ⟨j, h1, h2, _, _⟩ | ⟨_, h2⟩
    · exact absurd h2 (hnone j h1)
    · rw [hidx, h2]

theorem C2_escape_index_least_crossing_witness :
    1 ≤ 10 ∧
    ((∃ k, k < 10 ∧ crosses (1 / 2, 1 / 2) k) →
      escape_index (1 / 2) (1 / 2) 10 < 10 ∧
      crosses (1 / 2, 1 / 2) (escape_index (1 / 2) (1 / 2) 10) ∧
      ∀ j, j < escape_index (1 / 2) (1 / 2) 10 → ¬ crosses (1 / 2, 1 / 2) j) ∧
    ((∀ k, k < 10 → ¬ crosses (1 / 2, 1 / 2) k) → escape_index (1 / 2) (1 / 2) 10 = 10 - 1) :=
  ⟨by decide, C2_escape_index_least_crossing (1 / 2) (1 / 2) 10 (by decide)⟩


/-! ## Palette -/

theorem to_byte_zero : to_byte 0 = 0 := by
  simp [to_byte, trunc]

theorem hsv_to_rgb_value_zero (h s : ℚ) : hsv_to_rgb h s 0 = ⟨0, 0, 0⟩ := by
  unfold hsv_to_rgb
  simp only [zero_mul, sub_self]
  split_ifs <;> simp [to_byte_zero]

theorem make_color_last (n : Nat) : make_color n (n - 1) = ⟨0, 0, 0⟩ := by
  unfold make_color
  simp only [if_true]
  exact hsv_to_rgb_value_zero _ _

theorem make_colors_length (initialized : Bool) (game : Game) :
    (make_colors initialized game).2.colors.length = game.current_it ∧
    (make_colors initialized game).2.current_it = game.current_it := by
  cases initialized <;> simp [make_colors]

/-- C3: for every bound `n ≥ 1`, `make_colors` leaves a palette of exactly `n` entries
whose last entry, index `n - 1`, is black `(0, 0, 0)`; the bound itself is unchanged. -/
theorem C3_make_colors_length_last_black (initialized : Bool) (game : Game)
    (hn : 1 ≤ game.current_it) :
    (make_colors initialized game).2.current_it = game.current_it ∧
    (make_colors initialized game).2.colors.length = game.current_it ∧
    (make_colors initialized game).2.colors[game.current_it - 1]? = some ⟨0, 0, 0⟩ := by
  refine ⟨(make_colors_length initialized game).2, (make_colors_length initialized game).1, ?_⟩
  have hlt : game.current_it - 1 < game.current_it := by omega
  cases initialized <;>
    simp [make_colors, List.getElem?_map, List.getElem?_range hlt, make_color_last]

theorem C3_make_colors_length_last_black_witness :
    1 ≤ init_game.current_it ∧
    (make_colors false init_game).2.current_it = init_game.current_it ∧
    (make_colors false init_game).2.colors.length = init_game.current_it ∧
    (make_colors false init_game).2.colors[init_game.current_it - 1]? = some ⟨0, 0, 0⟩ :=
  ⟨by decide, C3_make_colors_length_last_black false init_game (by decide)⟩

/-! ## Input -/

/-- C7: a primary-button click at `(x, y)` halves `step`, moves the origin by
`step * (x - 1280/4, y - 720/4)` (old `step`), clears `rendered` and changes nothing else;
the clicked point becomes the centre of the new view:
`origin' + step' * (640, 360) = origin + step * (x, y)`. Scenario: from `step = 2/720`,
`origin = (-2.5, -1)`, a click at `(640, 360)` gives `step' = 1/720` and
`origin' = origin + step * (320, 180)`. -/
theorem C7_primary_click (game : Game) (x y : Int) :
    (∃ game1, handle_event game (Event.mouseButtonDown SDL_BUTTON_LEFT x y) = some game1 ∧
      game1.step = game.step / 2 ∧
      game1.topleft_corner.x = game.topleft_corner.x + game.step * ((x : ℚ) - 1280 / 4) ∧
      game1.topleft_corner.y = game.topleft_corner.y + game.step * ((y : ℚ) - 720 / 4) ∧
      game1.rendered = 0 ∧
      game1.topleft_corner.x + game1.step * 640 = game.topleft_corner.x + game.step * (x : ℚ) ∧
      game1.topleft_corner.y + game1.step * 360 = game.topleft_corner.y + game.step * (y : ℚ) ∧
      game1.current_it = game.current_it ∧ game1.last_it = game.last_it ∧
      game1.colors = game.colors ∧ game1.remake_colors = game.remake_colors) ∧
    (∃ game2, handle_event init_game (Event.mouseButtonDown SDL_BUTTON_LEFT 640 360) = some game2 ∧
      init_game.step = 2 / 720 ∧ init_game.topleft_corner = ⟨-5 / 2, -1⟩ ∧
      game2.step = 1 / 720 ∧
      game2.topleft_corner.x = init_game.topleft_corner.x + init_game.step * 320 ∧
      game2.topleft_corner.y = init_game.topleft_corner.y + init_game.step * 180) := by
  constructor
  · refine ⟨_, rfl, ?_⟩
    simp only [if_true, SCREEN_WIDTH, SCREEN_HEIGHT, Nat.cast_ofNat]
    refine ⟨trivial, trivial, trivial, trivial, ?_, ?_, trivial, trivial, trivial, trivial⟩ <;> ring
  · refine ⟨_, rfl, ?_⟩
    simp only [if_true, init_game, SCREEN_WIDTH, SCREEN_HEIGHT, Nat.cast_ofNat]
    norm_num

/-- C8: a secondary-button click at any position doubles `step`, moves the origin by
`-step * (1280/2, 720/2)`, clears `rendered` and changes nothing else; the complex
coordinate of the screen centre is unchanged:
`origin' + step' * (640, 360) = origin + step * (640, 360)`. -/
theorem C8_secondary_click (game : Game) (x y : Int) :
    ∃ game1, handle_event game (Event.mouseButtonDown SDL_BUTTON_RIGHT x y) = some game1 ∧
      game1.step = 2 * game.step ∧
      game1.topleft_corner.x = game.topleft_corner.x - game.step * (1280 / 2) ∧
      game1.topleft_corner.y = game.topleft_corner.y - game.step * (720 / 2) ∧
      game1.rendered = 0 ∧
      game1.topleft_corner.x + game1.step * 640 = game.topleft_corner.x + game.step * 640 ∧
      game1.topleft_corner.y + game1.step * 360 = game.topleft_corner.y + game.step * 360 ∧
      game1.current_it = game.current_it ∧ game1.last_it = game.last_it ∧
      game1.colors = game.colors ∧ game1.remake_colors = game.remake_colors := by
  refine ⟨_, rfl, ?_⟩
  have h : ¬ (SDL_BUTTON_RIGHT = SDL_BUTTON_LEFT) := by decide
  simp only [if_neg h, if_true, SCREEN_WIDTH, SCREEN_HEIGHT, Nat.cast_ofNat]
  refine ⟨?_, ?_, ?_, trivial, ?_, ?_, trivial, trivial, trivial, trivial⟩ <;> ring


/-! ## Detail keys -/

/-- The bound after a decrease-detail key event, as a function of the bound before. -/
theorem handle_event_n (game : Game) :
    handle_event game (Event.keyDown SDLK_n) =
      some { game with
        current_it :=
          if game.current_it > 100 then game.current_it - 100
          else if game.current_it > 10 then 10 else game.current_it
        remake_colors := 1
        rendered := 0 } := by
  simp only [handle_event, if_true]
  split_ifs <;> rfl

/-- The bound after an increase-detail key event, as a function of the bound before. -/
theorem handle_event_m (game : Game) :
    handle_event game (Event.keyDown SDLK_m) =
      some { game with
        current_it := if game.current_it = 10 then 100 else add64 game.current_it 100
        remake_colors := 1
        rendered := 0 } := by
  have h : ¬ (SDLK_m = SDLK_n) := by decide
  simp only [handle_event, if_neg h, if_true]
  split_ifs <;> rfl

theorem input_replicate_n (k : Nat) :
    ∀ game : Game, 10 ≤ game.current_it →
      (game.current_it % 100 = 0 ∨ 10 ≤ game.current_it % 100) →
      ∃ game1, input game (List.replicate k (Event.keyDown SDLK_n)) = some game1 ∧
        10 ≤ game1.current_it ∧ game1.current_it ≤ game.current_it := by
  induction k with
  | zero => intro game h1 _; exact ⟨game, rfl, h1, le_refl _⟩
  | succ k ih =>
    intro game h1 h2
    simp only [List.replicate_succ, input, handle_event_n]
    have key : ∀ c : Nat, 10 ≤ c → (c % 100 = 0 ∨ 10 ≤ c % 100) →
        10 ≤ (if c > 100 then c - 100 else if c > 10 then 10 else c) ∧
        ((if c > 100 then c - 100 else if c > 10 then 10 else c) % 100 = 0 ∨
          10 ≤ (if c > 100 then c - 100 else if c > 10 then 10 else c) % 100) ∧
        (if c > 100 then c - 100 else if c > 10 then 10 else c) ≤ c := by
      intro c hc1 hc2
      split_ifs <;> omega
    obtain ⟨k1, k2, k3⟩ := key game.current_it h1 h2
    obtain ⟨game1, e1, e2, e3⟩ := ih { game with
        current_it :=
          if game.current_it > 100 then game.current_it - 100
          else if game.current_it > 10 then 10 else game.current_it
        remake_colors := 1
        rendered := 0 } k1 k2
    exact ⟨game1, e1, e2, le_trans e3 k3⟩

/-- C9, as stated, fails: from the bound 105 (which is `≥ 10`) one decrease-detail key
event gives the bound 5, below 10. -/
theorem C9_counterexample :
    10 ≤ ({ init_game with current_it := 105 } : Game).current_it ∧
    (input { init_game with current_it := 105 } [Event.keyDown SDLK_n]).map Game.current_it
      = some 5 := by
  constructor
  · decide
  · simp only [input, handle_event_n]
    rfl

/-- C9 (amended): for every bound `b ≥ 10` a decrease-detail key event gives `b - 100` if
`b > 100`, `10` if `10 < b ≤ 100` and `b` if `b = 10`, and sets both dirty flags; for any
number `k` of repeated decrease-detail events starting from a bound `b ≥ 10` with
`b % 100 = 0` or `b % 100 ≥ 10` (so from 10 and from every multiple of 100) the bound
never goes below 10. -/
theorem C9_decrease_detail (game : Game) (k : Nat) (hb : 10 ≤ game.current_it) :
    (∃ game1, handle_event game (Event.keyDown SDLK_n) = some game1 ∧
      (game.current_it > 100 → game1.current_it = game.current_it - 100) ∧
      (10 < game.current_it → game.current_it ≤ 100 → game1.current_it = 10) ∧
      (game.current_it = 10 → game1.current_it = game.current_it) ∧
      game1.rendered = 0 ∧ game1.remake_colors = 1) ∧
    ((game.current_it % 100 = 0 ∨ 10 ≤ game.current_it % 100) →
      ∃ game2, input game (List.replicate k (Event.keyDown SDLK_n)) = some game2 ∧
        10 ≤ game2.current_it) := by
  constructor
  · refine ⟨_, handle_event_n game, ?_, ?_, ?_, rfl, rfl⟩
    · intro h; simp only [if_pos h]
    · intro h1 h2
      have h3 : ¬ game.current_it > 100 := by omega
      simp only [if_neg h3, if_pos h1]
    · intro h
      have h3 : ¬ game.current_it > 100 := by omega
      have h4 : ¬ game.current_it > 10 := by omega
      simp only [if_neg h3, if_neg h4]
  · intro h
    obtain ⟨game2, e1, e2, _⟩ := input_replicate_n k game hb h
    exact ⟨game2, e1, e2⟩

theorem C9_decrease_detail_witness :
    10 ≤ init.2.current_it ∧
    (∃ game1, handle_event init.2 (Event.keyDown SDLK_n) = some game1 ∧
      (init.2.current_it > 100 → game1.current_it = init.2.current_it - 100) ∧
      (10 < init.2.current_it → init.2.current_it ≤ 100 → game1.current_it = 10) ∧
      (init.2.current_it = 10 → game1.current_it = init.2.current_it) ∧
      game1.rendered = 0 ∧ game1.remake_colors = 1) ∧
    ((init.2.current_it % 100 = 0 ∨ 10 ≤ init.2.current_it % 100) →
      ∃ game2, input init.2 (List.replicate 3 (Event.keyDown SDLK_n)) = some game2 ∧
        10 ≤ game2.current_it) :=
  ⟨by decide, C9_decrease_detail init.2 3 (by decide)⟩

theorem input_replicate_m (k : Nat) :
    ∀ game : Game, game.current_it % 4 = 0 → game.current_it < U64 →
      game.rendered = 0 → game.remake_colors = 1 →
      ∃ game1, input game (List.replicate k (Event.keyDown SDLK_m)) = some game1 ∧
        game1.current_it = (game.current_it + 100 * k) % U64 ∧
        game1.rendered = 0 ∧ game1.remake_colors = 1 := by
  induction k with
  | zero =>
    intro game _ hlt hr hc
    exact ⟨game, rfl, by simp [Nat.mod_eq_of_lt hlt], hr, hc⟩
  | succ k ih =>
    intro game h hlt _ _
    simp only [List.replicate_succ, input, handle_event_m]
    have h10 : ¬ game.current_it = 10 := by omega
    simp only [if_neg h10]
    have hU : U64 = 18446744073709551616 := by norm_num [U64]
    have h1 : add64 game.current_it 100 % 4 = 0 := by
      simp only [add64, hU]; omega
    have h2 : add64 game.current_it 100 < U64 := by
      simp only [add64, hU]; omega
    obtain ⟨game1, e1, e2, e3, e4⟩ := ih { game with
        current_it := add64 game.current_it 100
        remake_colors := 1
        rendered := 0 } h1 h2 rfl rfl
    refine ⟨game1, e1, ?_, e3, e4⟩
    rw [e2]
    simp only [add64, hU]
    omega

/-- The bound after `n + 1` increase-detail key events from the bound 10. -/
theorem input_replicate_m_from_10 (game : Game) (n : Nat) (h10 : game.current_it = 10) :
    ∃ game1, input game (List.replicate (n + 1) (Event.keyDown SDLK_m)) = some game1 ∧
      game1.current_it = (100 * (n + 1)) % U64 ∧
      game1.rendered = 0 ∧ game1.remake_colors = 1 := by
  simp only [List.replicate_succ, input, handle_event_m, if_pos h10]
  have hU : U64 = 18446744073709551616 := by norm_num [U64]
  obtain ⟨game1, e1, e2, e3, e4⟩ := input_replicate_m n { game with
      current_it := 100
      remake_colors := 1
      rendered := 0 } (by norm_num) (by simp only [hU]; omega) rfl rfl
  refine ⟨game1, e1, ?_, e3, e4⟩
  rw [e2]
  congr 1
  ring

/-- C10, as stated, fails: `current_it` is a `uint64_t`, and from the bound 10 the
184467440737095517-th increase-detail key event wraps it around to 84, which is not
`100 * 184467440737095517`. -/
theorem C10_counterexample :
    (input { init_game with current_it := 10 }
        (List.replicate 184467440737095517 (Event.keyDown SDLK_m))).map Game.current_it
      = some 84 ∧
    (84 : Nat) ≠ 100 * 184467440737095517 := by
  constructor
  · obtain ⟨game1, e1, e2, _, _⟩ :=
      input_replicate_m_from_10 { init_game with current_it := 10 } 184467440737095516 rfl
    have e : (184467440737095516 + 1 : Nat) = 184467440737095517 := by norm_num
    rw [e] at e1 e2
    rw [e1, Option.map_some', e2]
    norm_num [U64]
  · norm_num

/-- C10 (amended): starting from the bound 10, for every `n ≥ 1` with `100 * n < 2^64`
(the bound is a `uint64_t`), `n` consecutive increase-detail key events give the bound
`100 * n`: the first event takes 10 to 100 and every later one adds 100; each
increase-detail event, from any state, sets both dirty flags (`rendered = 0`,
`remake_colors = 1`). -/
theorem C10_increase_detail (game : Game) (n : Nat) (h10 : game.current_it = 10)
    (hn : 1 ≤ n) (hfit : 100 * n < 2 ^ 64) :
    (∃ game1, input game (List.replicate n (Event.keyDown SDLK_m)) = some game1 ∧
      game1.current_it = 100 * n ∧ game1.rendered = 0 ∧ game1.remake_colors = 1) ∧
    (∃ game2, handle_event game (Event.keyDown SDLK_m) = some game2 ∧
      game2.current_it = 100) ∧
    (∀ other : Game, other.current_it ≠ 10 → other.current_it + 100 < 2 ^ 64 →
      ∃ game3, handle_event other (Event.keyDown SDLK_m) = some game3 ∧
        game3.current_it = other.current_it + 100) ∧
    (∀ other : Game, ∃ game4, handle_event other (Event.keyDown SDLK_m) = some game4 ∧
      game4.rendered = 0 ∧ game4.remake_colors = 1) := by
  have hU : U64 = 2 ^ 64 := rfl
  refine ⟨?_, ?_, ?_, ?_⟩
  · obtain ⟨m, rfl⟩ : ∃ m, n = m + 1 := ⟨n - 1, by omega⟩
    obtain ⟨game1, e1, e2, e3, e4⟩ := input_replicate_m_from_10 game m h10
    refine ⟨game1, e1, ?_, e3, e4⟩
    rw [e2, hU, Nat.mod_eq_of_lt hfit]
  · exact ⟨_, handle_event_m game, by simp only [if_pos h10]⟩
  · intro other h1 h2
    refine ⟨_, handle_event_m other, ?_⟩
    simp only [if_neg h1, add64, hU]
    exact Nat.mod_eq_of_lt h2
  · intro other
    exact ⟨_, handle_event_m other, rfl, rfl⟩

theorem C10_increase_detail_witness :
    (({ init_game with current_it := 10 } : Game).current_it = 10 ∧ 1 ≤ 3 ∧ 100 * 3 < 2 ^ 64) ∧
    (∃ game1, input { init_game with current_it := 10 }
        (List.replicate 3 (Event.keyDown SDLK_m)) = some game1 ∧
      game1.current_it = 100 * 3 ∧ game1.rendered = 0 ∧ game1.remake_colors = 1) ∧
    (∃ game2, handle_event { init_game with current_it := 10 } (Event.keyDown SDLK_m)
        = some game2 ∧ game2.current_it = 100) ∧
    (∀ other : Game, other.current_it ≠ 10 → other.current_it + 100 < 2 ^ 64 →
      ∃ game3, handle_event other (Event.keyDown SDLK_m) = some game3 ∧
        game3.current_it = other.current_it + 100) ∧
    (∀ other : Game, ∃ game4, handle_event other (Event.keyDown SDLK_m) = some game4 ∧
      game4.rendered = 0 ∧ game4.remake_colors = 1) :=
  ⟨⟨rfl, by decide, by norm_num⟩,
    C10_increase_detail { init_game with current_it := 10 } 3 rfl (by decide) (by norm_num)⟩


/-! ## Workers -/

theorem lookup_some (game : Game) (hwf : game.wf) (x y : ℚ) :
    ∃ color, game.colors[escape_index x y game.current_it]? = some color ∧
      ∀ ch, pixel_value game x y ch = channel color ch := by
  have hlt : escape_index x y game.current_it < game.colors.length := by
    rw [hwf.1]; exact escape_index_lt x y _ hwf.2
  refine ⟨game.colors[escape_index x y game.current_it], List.getElem?_eq_getElem hlt, ?_⟩
  intro ch
  simp only [pixel_value, List.getElem?_eq_getElem hlt]

theorem range_succ_three (p n : Nat) :
    List.range' p (3 * (n + 1)) = p :: (p + 1) :: (p + 1 + 1) :: List.range' (p + 1 + 1 + 1) (3 * n) := by
  have e : 3 * (n + 1) = 3 * n + 1 + 1 + 1 := by ring
  rw [e]
  simp only [List.range'_succ]

/-- The inner loop writes the `3 * cols` bytes from `pixels` on, in order, and leaves `x`
advanced by `cols` steps. -/
theorem render_row_eq (game : Game) (hwf : game.wf) (f : Nat → Nat) (y : ℚ) (cols : Nat) :
    ∀ (x : ℚ) (p : Nat),
      (∀ i, i < cols → ∀ ch, ch < 3 →
        f (p + 3 * i + ch) = pixel_value game (x + (i : ℚ) * game.step) y ch) →
      render_row game y cols x p =
        some ((List.range' p (3 * cols)).map (write_of f), x + (cols : ℚ) * game.step,
          p + 3 * cols) := by
  induction cols with
  | zero => intro x p _; simp [render_row]
  | succ cols ih =>
    intro x p hf
    obtain ⟨color, hc, hv⟩ := lookup_some game hwf x y
    have hrest := ih (x + game.step) (p + 1 + 1 + 1) (by
      intro i hi ch hch
      have := hf (i + 1) (by omega) ch hch
      have e1 : p + 1 + 1 + 1 + 3 * i + ch = p + 3 * (i + 1) + ch := by ring
      have e2 : x + game.step + (i : ℚ) * game.step = x + ((i + 1 : Nat) : ℚ) * game.step := by
        push_cast; ring
      rw [e1, e2]; exact this)
    simp only [render_row, hc, hrest]
    have h0 := hf 0 (by omega) 0 (by omega)
    have h1 := hf 0 (by omega) 1 (by omega)
    have h2 := hf 0 (by omega) 2 (by omega)
    simp only [Nat.cast_zero, zero_mul, add_zero, Nat.mul_zero, hv, channel] at h0 h1 h2
    rw [range_succ_three]
    simp only [List.map_cons, write_of, h0, h1, h2]
    have e1 : x + game.step + (cols : ℚ) * game.step = x + ((cols + 1 : Nat) : ℚ) * game.step := by
      push_cast; ring
    have e2 : p + 1 + 1 + 1 + 3 * cols = p + 3 * (cols + 1) := by ring
    rw [e1, e2]

theorem render_rows_eq (sc : Screen) (args : ThreadArg) (hwf : args.game.wf) (f : Nat → Nat)
    (rows : Nat) :
    ∀ (y : ℚ) (p : Nat), Agrees sc args.game f p args.left_corner.x y rows →
      render_rows sc args rows y p =
        some ((List.range' p (rows * sc.width * 3)).map (write_of f)) := by
  induction rows with
  | zero => intro y p _; simp [render_rows]
  | succ rows ih =>
    intro y p hf
    have hrow := render_row_eq args.game hwf f y sc.width args.left_corner.x p (by
      intro i hi ch hch
      have := hf 0 (by omega) i hi ch hch
      simpa using this)
    have hrest := ih (y + args.game.step) (p + 3 * sc.width) (by
      intro j hj i hi ch hch
      have := hf (j + 1) (by omega) i hi ch hch
      have e1 : p + 3 * sc.width + 3 * (j * sc.width + i) + ch
          = p + 3 * ((j + 1) * sc.width + i) + ch := by ring
      have e2 : y + args.game.step + (j : ℚ) * args.game.step
          = y + ((j + 1 : Nat) : ℚ) * args.game.step := by push_cast; ring
      rw [e1, e2]; exact this)
    simp only [render_rows, hrow, hrest]
    have e : (rows + 1) * sc.width * 3 = rows * sc.width * 3 + 3 * sc.width := by ring
    rw [e, ← List.range'_append_1, List.map_append]

/-- A worker whose band agrees with `f` stores exactly the bytes of `band_writes`. -/
theorem render_thread_eq (sc : Screen) (args : ThreadArg) (hwf : args.game.wf) (f : Nat → Nat)
    (hf : Agrees sc args.game f args.pixels args.left_corner.x args.left_corner.y args.num_rows) :
    render_thread sc args = some (band_writes sc f args) :=
  render_rows_eq sc args hwf f args.num_rows args.left_corner.y args.pixels hf

theorem run_threads_eq (sc : Screen) (f : Nat → Nat) :
    ∀ l : List ThreadArg,
      (∀ a, a ∈ l → a.game.wf ∧
        Agrees sc a.game f a.pixels a.left_corner.x a.left_corner.y a.num_rows) →
      run_threads sc l = some (l.map (band_writes sc f)) := by
  intro l
  induction l with
  | nil => intro _; rfl
  | cons a rest ih =>
    intro h
    have ha := h a (List.mem_cons_self a rest)
    have hr := ih (fun b hb => h b (List.mem_cons_of_mem a hb))
    simp only [run_threads, render_thread_eq sc a ha.1 f ha.2, hr, List.map_cons]


/-! ## Dispatcher: the bands -/

theorem thread_args_length (sc : Screen) (game : Game) (todo : Nat) :
    ∀ (i nr : Nat) (y : ℚ) (p : Nat), (thread_args sc game todo i nr y p).length = todo := by
  induction todo with
  | zero => intro i nr y p; rfl
  | succ todo ih => intro i nr y p; simp [thread_args, ih]

/-- Band number `j` of the bands still to do, when the last of them is band
`threads - 1`: all bands have `nr` rows, the last one `height % threads` more. -/
theorem thread_args_getElem (sc : Screen) (game : Game) (todo : Nat) :
    ∀ (i nr : Nat) (y : ℚ) (p : Nat), i + todo = sc.threads →
      ∀ j, j < todo →
        (thread_args sc game todo i nr y p)[j]? =
          some ⟨game, p + j * nr * sc.width * 3,
            ⟨game.topleft_corner.x, y + game.step * ((j * nr : Nat) : ℚ)⟩,
            if i + j = sc.threads - 1 then nr + sc.height % sc.threads else nr⟩ := by
  induction todo with
  | zero => intro i nr y p _ j hj; omega
  | succ todo ih =>
    intro i nr y p hi j hj
    cases j with
    | zero =>
      simp [thread_args]
    | succ j =>
      have hne : ¬ (i = sc.threads - 1) := by omega
      simp only [thread_args, if_neg hne, List.getElem?_cons_succ]
      rw [ih (i + 1) nr _ _ (by omega) j (by omega)]
      have e1 : p + nr * sc.width * 3 + j * nr * sc.width * 3 = p + (j + 1) * nr * sc.width * 3 := by
        ring
      have e2 : y + game.step * (nr : ℚ) + game.step * ((j * nr : Nat) : ℚ)
          = y + game.step * (((j + 1) * nr : Nat) : ℚ) := by
        push_cast; ring
      have e3 : i + 1 + j = i + (j + 1) := by ring
      rw [e1, e2, e3]

theorem thread_args_sum (sc : Screen) (game : Game) (todo : Nat) :
    ∀ (i nr : Nat) (y : ℚ) (p : Nat), i + todo = sc.threads →
      ((thread_args sc game todo i nr y p).map ThreadArg.num_rows).sum =
        todo * nr + (if todo = 0 then 0 else sc.height % sc.threads) := by
  induction todo with
  | zero => intro i nr y p _; simp [thread_args]
  | succ todo ih =>
    intro i nr y p hi
    simp only [thread_args, List.map_cons, List.sum_cons]
    by_cases hlast : i = sc.threads - 1
    · have ht : todo = 0 := by omega
      subst ht
      simp [thread_args, hlast]
    · have ht : ¬ todo = 0 := by omega
      rw [if_neg hlast, ih (i + 1) nr _ _ (by omega), if_neg ht]
      simp only [Nat.succ_ne_zero, if_false]
      ring

/-- C5: for every frame height `h` and band count `k ≥ 1` (and every width, game and buffer
offset) the bands of `render_threaded` are `k` bands of `h / k` rows, the last one taking
`h % k` more; their row counts sum to `h`; band `i` starts at row `i * (h / k)` (its
`pixels` is that many rows into the buffer and its `left_corner.y` that many steps below
the origin), which is the end row of band `i - 1`; band 0 starts at row 0 (at `pixels` and at the
origin); the last band ends at row `h`; and bands are ordered and pairwise disjoint. -/
theorem C5_bands_partition (sc : Screen) (game : Game) (pixels : Nat) (hk : 1 ≤ sc.threads) :
    (bands sc game pixels).length = sc.threads ∧
    ((bands sc game pixels).map ThreadArg.num_rows).sum = sc.height ∧
    (∀ i, i < sc.threads → ∃ a, (bands sc game pixels)[i]? = some a ∧
      a.num_rows =
        sc.height / sc.threads + (if i = sc.threads - 1 then sc.height % sc.threads else 0) ∧
      a.pixels = pixels + (i * (sc.height / sc.threads)) * sc.width * 3 ∧
      a.left_corner = ⟨game.topleft_corner.x,
        game.topleft_corner.y + game.step * ((i * (sc.height / sc.threads) : Nat) : ℚ)⟩ ∧
      a.game = game ∧
      (i + 1 < sc.threads →
        (i + 1) * (sc.height / sc.threads) = i * (sc.height / sc.threads) + a.num_rows) ∧
      (i = sc.threads - 1 → i * (sc.height / sc.threads) + a.num_rows = sc.height) ∧
      (∀ j, i < j → j < sc.threads →
        i * (sc.height / sc.threads) + a.num_rows ≤ j * (sc.height / sc.threads))) ∧
    (∃ a, (bands sc game pixels)[0]? = some a ∧ a.pixels = pixels ∧
      a.left_corner = game.topleft_corner) := by
  refine ⟨thread_args_length sc game _ _ _ _ _, ?_, ?_, ?_⟩
  · have h := thread_args_sum sc game sc.threads 0 (sc.height / sc.threads)
      game.topleft_corner.y pixels (by omega)
    have hne : ¬ sc.threads = 0 := by omega
    rw [if_neg hne] at h
    unfold bands
    rw [h]
    exact Nat.div_add_mod sc.height sc.threads
  · intro i hi
    have h := thread_args_getElem sc game sc.threads 0 (sc.height / sc.threads)
      game.topleft_corner.y pixels (by omega) i hi
    refine ⟨_, h, ?_, ?_, rfl, rfl, ?_, ?_, ?_⟩
    · simp only [Nat.zero_add]
      split_ifs <;> simp
    · ring
    · intro hlt
      have hne : ¬ (0 + i = sc.threads - 1) := by omega
      simp only [if_neg hne]
      ring
    · intro hlast
      have he : 0 + i = sc.threads - 1 := by omega
      simp only [if_pos he]
      have hd := Nat.div_add_mod sc.height sc.threads
      have e : sc.threads = i + 1 := by omega
      rw [e] at hd ⊢
      rw [← Nat.add_assoc, ← Nat.succ_mul]
      exact hd
    · intro j hij hj
      have hne : ¬ (0 + i = sc.threads - 1) := by omega
      simp only [if_neg hne]
      rw [← Nat.succ_mul]
      exact Nat.mul_le_mul_right _ hij
  · have h := thread_args_getElem sc game sc.threads 0 (sc.height / sc.threads)
      game.topleft_corner.y pixels (by omega) 0 (by omega)
    refine ⟨_, h, ?_, ?_⟩
    · simp
    · simp

theorem C5_bands_partition_witness :
    1 ≤ screen.threads ∧
    ((bands screen init_game 0).length = screen.threads ∧
    ((bands screen init_game 0).map ThreadArg.num_rows).sum = screen.height ∧
    (∀ i, i < screen.threads → ∃ a, (bands screen init_game 0)[i]? = some a ∧
      a.num_rows =
        screen.height / screen.threads +
          (if i = screen.threads - 1 then screen.height % screen.threads else 0) ∧
      a.pixels = 0 + (i * (screen.height / screen.threads)) * screen.width * 3 ∧
      a.left_corner = ⟨init_game.topleft_corner.x,
        init_game.topleft_corner.y +
          init_game.step * ((i * (screen.height / screen.threads) : Nat) : ℚ)⟩ ∧
      a.game = init_game ∧
      (i + 1 < screen.threads →
        (i + 1) * (screen.height / screen.threads)
          = i * (screen.height / screen.threads) + a.num_rows) ∧
      (i = screen.threads - 1 →
        i * (screen.height / screen.threads) + a.num_rows = screen.height) ∧
      (∀ j, i < j → j < screen.threads →
        i * (screen.height / screen.threads) + a.num_rows
          ≤ j * (screen.height / screen.threads))) ∧
    (∃ a, (bands screen init_game 0)[0]? = some a ∧ a.pixels = 0 ∧
      a.left_corner = init_game.topleft_corner)) :=
  ⟨by decide, C5_bands_partition screen init_game 0 (by decide)⟩


/-! ## Dispatcher: the frame -/

theorem reference_byte_at (sc : Screen) (game : Game) (pixels row col ch : Nat)
    (hcol : col < sc.width) (hch : ch < 3) :
    reference_byte sc game pixels (pixels + 3 * (row * sc.width + col) + ch) =
      pixel_value game (game.topleft_corner.x + (col : ℚ) * game.step)
        (game.topleft_corner.y + (row : ℚ) * game.step) ch := by
  have e0 : pixels + 3 * (row * sc.width + col) + ch - pixels
      = 3 * (row * sc.width + col) + ch := by omega
  have e1 : (3 * (row * sc.width + col) + ch) / 3 = row * sc.width + col := by omega
  have e2 : (3 * (row * sc.width + col) + ch) % 3 = ch := by omega
  have e3 : (row * sc.width + col) % sc.width = col := by
    rw [Nat.add_comm, Nat.add_mul_mod_self_right, Nat.mod_eq_of_lt hcol]
  have e4 : (row * sc.width + col) / sc.width = row := by
    rw [Nat.add_comm, Nat.add_mul_div_right _ _ (by omega), Nat.div_eq_of_lt hcol, Nat.zero_add]
  simp only [reference_byte, e0, e1, e2, e3, e4]

/-- Every band of `render_threaded` agrees with the reference frame. -/
theorem bands_agree (sc : Screen) (game : Game) (pixels : Nat) (a : ThreadArg)
    (ha : a ∈ bands sc game pixels) :
    a.game = game ∧
    Agrees sc a.game (reference_byte sc game pixels) a.pixels a.left_corner.x a.left_corner.y
      a.num_rows := by
  obtain ⟨j, hj⟩ := List.mem_iff_getElem?.1 ha
  have hlt : j < sc.threads := by
    obtain ⟨h, _⟩ := List.getElem?_eq_some.1 hj
    unfold bands at h
    rw [thread_args_length] at h
    exact h
  have h := thread_args_getElem sc game sc.threads 0 (sc.height / sc.threads)
    game.topleft_corner.y pixels (by omega) j hlt
  unfold bands at hj
  rw [h] at hj
  have e := (Option.some.inj hj).symm
  subst e
  refine ⟨rfl, ?_⟩
  intro r _ i hi ch hch
  have e1 : pixels + j * (sc.height / sc.threads) * sc.width * 3 + 3 * (r * sc.width + i) + ch
      = pixels + 3 * ((j * (sc.height / sc.threads) + r) * sc.width + i) + ch := by ring
  show reference_byte sc game pixels
      (pixels + j * (sc.height / sc.threads) * sc.width * 3 + 3 * (r * sc.width + i) + ch) =
    pixel_value game (game.topleft_corner.x + (i : ℚ) * game.step)
      (game.topleft_corner.y + game.step * ((j * (sc.height / sc.threads) : Nat) : ℚ)
        + (r : ℚ) * game.step) ch
  rw [e1, reference_byte_at sc game pixels _ i ch hi hch]
  congr 1
  push_cast
  ring

theorem thread_args_flatten (sc : Screen) (game : Game) (f : Nat → Nat) (todo : Nat) :
    ∀ (i nr : Nat) (y : ℚ) (p : Nat), i + todo = sc.threads →
      ((thread_args sc game todo i nr y p).map (band_writes sc f)).flatten =
        (List.range' p
          ((todo * nr + (if todo = 0 then 0 else sc.height % sc.threads)) * sc.width * 3)).map
          (write_of f) := by
  induction todo with
  | zero => intro i nr y p _; simp [thread_args]
  | succ todo ih =>
    intro i nr y p hi
    simp only [thread_args, List.map_cons, List.flatten_cons, band_writes]
    rw [ih (i + 1) _ _ _ (by omega), ← List.map_append, List.range'_append_1]
    congr 2
    by_cases hlast : i = sc.threads - 1
    · have ht : todo = 0 := by omega
      subst ht
      simp [hlast]
    · have ht : ¬ todo = 0 := by omega
      simp only [if_neg hlast, if_neg ht, Nat.succ_ne_zero, if_false]
      ring

/-- With a palette as long as the bound, `render_threaded` returns, and its workers store
the bytes of the reference frame, band by band. -/
theorem render_threaded_eq (sc : Screen) (game : Game) (pixels : Nat) (hwf : game.wf) :
    render_threaded sc game pixels =
      some ((bands sc game pixels).map (band_writes sc (reference_byte sc game pixels))) := by
  unfold render_threaded
  apply run_threads_eq
  intro a ha
  obtain ⟨h1, h2⟩ := bands_agree sc game pixels a ha
  exact ⟨by rw [h1]; exact hwf, h2⟩

/-- All writes of a frame, band after band: the offsets `pixels, pixels + 1, ...`, each
once, `height * width * 3` of them. -/
theorem bands_flatten (sc : Screen) (game : Game) (pixels : Nat) (f : Nat → Nat)
    (hk : 1 ≤ sc.threads) :
    ((bands sc game pixels).map (band_writes sc f)).flatten =
      (List.range' pixels (sc.height * sc.width * 3)).map (write_of f) := by
  unfold bands
  rw [thread_args_flatten sc game f sc.threads 0 _ _ _ (by omega)]
  have hne : ¬ sc.threads = 0 := by omega
  rw [if_neg hne, Nat.div_add_mod]

theorem apply_writes_not_mem (a : Nat) :
    ∀ (ws : List Write) (buf : Buffer), (∀ w, w ∈ ws → w.addr ≠ a) →
      apply_writes buf ws a = buf a := by
  intro ws
  induction ws with
  | nil => intro buf _; rfl
  | cons w ws ih =>
    intro buf h
    simp only [apply_writes]
    rw [ih _ (fun w' hw' => h w' (List.mem_cons_of_mem w hw'))]
    have := h w (List.mem_cons_self w ws)
    simp only [if_neg (fun e : a = w.addr => this e.symm)]

/-- When every write stores `f` of its offset, the buffer holds `f a` at every offset `a`
that is written, whatever the order of the writes. -/
theorem apply_writes_mem (f : Nat → Nat) (a : Nat) :
    ∀ (ws : List Write) (buf : Buffer), (∀ w, w ∈ ws → w.val = f w.addr) →
      (∃ w, w ∈ ws ∧ w.addr = a) → apply_writes buf ws a = f a := by
  intro ws
  induction ws with
  | nil => intro buf _ h; obtain ⟨w, hw, _⟩ := h; cases hw
  | cons w ws ih =>
    intro buf hval hex
    simp only [apply_writes]
    by_cases hlater : ∃ w', w' ∈ ws ∧ w'.addr = a
    · exact ih _ (fun w' hw' => hval w' (List.mem_cons_of_mem w hw')) hlater
    · rw [apply_writes_not_mem a ws _ (fun w' hw' e => hlater ⟨w', hw', e⟩)]
      obtain ⟨w', hw', e⟩ := hex
      rcases List.mem_cons.1 hw' with rfl | hin
      · simp only [e, if_true]
        rw [hval w' (List.mem_cons_self _ _), e]
      · exact absurd ⟨w', hin, e⟩ hlater


theorem mem_frame_writes (f : Nat → Nat) (p n : Nat) (w : Write) :
    w ∈ (List.range' p n).map (write_of f) ↔ (p ≤ w.addr ∧ w.addr < p + n) ∧ w.val = f w.addr := by
  simp only [List.mem_map, List.mem_range'_1, write_of]
  constructor
  · rintro ⟨a, ha, rfl⟩
    exact ⟨ha, rfl⟩
  · rintro ⟨ha, hv⟩
    refine ⟨w.addr, ha, ?_⟩
    cases w
    simp only at hv ⊢
    rw [hv]

/-- The byte of channel `ch` of pixel `(col, row)` after the workers' writes, taken in any
order, is the palette byte of the point `origin + (col * step, row * step)`. -/
theorem frame_value (sc : Screen) (game : Game) (pixels : Nat) (buf : Buffer)
    (hk : 1 ≤ sc.threads) (ws : List Write)
    (hperm : ws.Perm
      ((bands sc game pixels).map (band_writes sc (reference_byte sc game pixels))).flatten)
    (col row ch : Nat) (hcol : col < sc.width) (hrow : row < sc.height) (hch : ch < 3) :
    apply_writes buf ws (pixels + 3 * (row * sc.width + col) + ch) =
      pixel_value game (game.topleft_corner.x + (col : ℚ) * game.step)
        (game.topleft_corner.y + (row : ℚ) * game.step) ch := by
  rw [bands_flatten sc game pixels _ hk] at hperm
  have hval : ∀ w, w ∈ ws → w.val = reference_byte sc game pixels w.addr := fun w hw =>
    ((mem_frame_writes _ _ _ w).1 (hperm.mem_iff.1 hw)).2
  have hbound : 3 * (row * sc.width + col) + ch < sc.height * sc.width * 3 := by
    have h1 : (row + 1) * sc.width ≤ sc.height * sc.width := Nat.mul_le_mul_right _ hrow
    have h2 : (row + 1) * sc.width = row * sc.width + sc.width := Nat.succ_mul _ _
    omega
  have hex : ∃ w, w ∈ ws ∧ w.addr = pixels + 3 * (row * sc.width + col) + ch := by
    refine ⟨write_of (reference_byte sc game pixels) (pixels + 3 * (row * sc.width + col) + ch),
      hperm.mem_iff.2 ?_, rfl⟩
    exact (mem_frame_writes _ _ _ _).2 ⟨⟨by simp only [write_of]; omega,
      by simp only [write_of]; omega⟩, rfl⟩
  rw [apply_writes_mem (reference_byte sc game pixels) _ ws buf hval hex]
  exact reference_byte_at sc game pixels row col ch hcol hch

/-- C4: for every viewport, bound `n ≥ 1` and palette of length `n`, `render_threaded`
(6 bands, each filled by `render_thread`, which advances `x` and `y` by repeated addition
of `step`) returns, and the frame it leaves is the single-pass reference frame: for every
pixel `(col, row)` with `col < 1280`, `row < 720` the three bytes at offset
`3 * (row * 1280 + col)` of the buffer are the palette entry
`colors[index(origin + (col * step, row * step), n)]`, in exact arithmetic. This holds for
the workers' writes taken band after band (`render_frame`) and in any other order. -/
theorem C4_frame_equals_reference (game : Game) (pixels : Nat) (buf : Buffer)
    (hlen : game.colors.length = game.current_it) (hn : 1 ≤ game.current_it) :
    ∃ wss, render_threaded screen game pixels = some wss ∧
      render_frame screen game pixels buf = some (apply_writes buf wss.flatten) ∧
      ∀ ws : List Write, ws.Perm wss.flatten →
        ∀ col row : Nat, col < 1280 → row < 720 →
          ∃ color,
            game.colors[escape_index (game.topleft_corner.x + (col : ℚ) * game.step)
              (game.topleft_corner.y + (row : ℚ) * game.step) game.current_it]? = some color ∧
            apply_writes buf ws (pixels + 3 * (row * 1280 + col)) = color.r ∧
            apply_writes buf ws (pixels + 3 * (row * 1280 + col) + 1) = color.g ∧
            apply_writes buf ws (pixels + 3 * (row * 1280 + col) + 2) = color.b := by
  have hwf : game.wf := ⟨hlen, hn⟩
  have hrt := render_threaded_eq screen game pixels hwf
  refine ⟨_, hrt, by simp only [render_frame, hrt, Option.map_some'], ?_⟩
  intro ws hperm col row hcol hrow
  obtain ⟨color, hc, hv⟩ := lookup_some game hwf
    (game.topleft_corner.x + (col : ℚ) * game.step)
    (game.topleft_corner.y + (row : ℚ) * game.step)
  have key := fun ch hch =>
    frame_value screen game pixels buf (by decide) ws hperm col row ch hcol hrow hch
  refine ⟨color, hc, ?_, ?_, ?_⟩
  · have := key 0 (by omega)
    rw [hv] at this
    exact this
  · have := key 1 (by omega)
    rw [hv] at this
    exact this
  · have := key 2 (by omega)
    rw [hv] at this
    exact this

/-- C6: a full-frame render over a 1280x720 buffer, for any bound `n ≥ 1` (with a palette
of length `n`), stores to every one of the `1280 * 720 * 3` bytes of the buffer exactly
once across the 6 bands, and to no other byte; band `i` stores to exactly
`num_rows * 1280 * 3` consecutive bytes starting at its own offset. -/
theorem C6_frame_bytes_written_once (game : Game) (pixels : Nat)
    (hlen : game.colors.length = game.current_it) (hn : 1 ≤ game.current_it) :
    ∃ wss, render_threaded screen game pixels = some wss ∧
      wss.length = 6 ∧
      wss.flatten.map Write.addr = List.range' pixels (1280 * 720 * 3) ∧
      (∀ a, (wss.flatten.map Write.addr).count a =
        if pixels ≤ a ∧ a < pixels + 1280 * 720 * 3 then 1 else 0) ∧
      ∀ i, i < 6 → ∃ band ws, (bands screen game pixels)[i]? = some band ∧
        wss[i]? = some ws ∧ render_thread screen band = some ws ∧
        ws.map Write.addr = List.range' band.pixels (band.num_rows * 1280 * 3) ∧
        band.pixels = pixels + i * 120 * 1280 * 3 ∧ band.num_rows = 120 := by
  have hwf : game.wf := ⟨hlen, hn⟩
  have hrt := render_threaded_eq screen game pixels hwf
  have haddr : ∀ (p n : Nat),
      ((List.range' p n).map (write_of (reference_byte screen game pixels))).map Write.addr
        = List.range' p n := by
    intro p n
    rw [List.map_map]
    have hid : Write.addr ∘ write_of (reference_byte screen game pixels) = id := rfl
    rw [hid, List.map_id]
  have hall : (((bands screen game pixels).map
      (band_writes screen (reference_byte screen game pixels))).flatten).map Write.addr
      = List.range' pixels (1280 * 720 * 3) := by
    rw [bands_flatten screen game pixels _ (by decide), haddr]
    rfl
  refine ⟨_, hrt, ?_, hall, ?_, ?_⟩
  · rw [List.length_map]
    exact thread_args_length screen game _ _ _ _ _
  · intro a
    rw [hall]
    split_ifs with h
    · exact List.count_eq_one_of_mem (List.nodup_range' _ _) (List.mem_range'_1.2 h)
    · exact List.count_eq_zero.2 (fun hm => h (List.mem_range'_1.1 hm))
  · intro i hi
    have hb := thread_args_getElem screen game screen.threads 0
      (screen.height / screen.threads) game.topleft_corner.y pixels (by omega) i hi
    have hmem : _ ∈ bands screen game pixels := List.mem_iff_getElem?.2 ⟨i, hb⟩
    obtain ⟨h1, h2⟩ := bands_agree screen game pixels _ hmem
    refine ⟨_, _, hb, ?_, render_thread_eq screen _ (by rw [h1]; exact hwf) _ h2, ?_, ?_, ?_⟩
    · rw [List.getElem?_map]
      unfold bands
      rw [hb]
      rfl
    · exact haddr _ _
    · rfl
    · have h720 : screen.height % screen.threads = 0 := by decide
      show (if 0 + i = screen.threads - 1 then screen.height / screen.threads
        + screen.height % screen.threads else screen.height / screen.threads) = 120
      rw [h720]
      simp only [Nat.add_zero, ite_self]
      decide


theorem C4_frame_equals_reference_witness :
    (init.2.colors.length = init.2.current_it ∧ 1 ≤ init.2.current_it) ∧
    ∃ wss, render_threaded screen init.2 0 = some wss ∧
      render_frame screen init.2 0 (fun _ => 0) = some (apply_writes (fun _ => 0) wss.flatten) ∧
      ∀ ws : List Write, ws.Perm wss.flatten →
        ∀ col row : Nat, col < 1280 → row < 720 →
          ∃ color,
            init.2.colors[escape_index (init.2.topleft_corner.x + (col : ℚ) * init.2.step)
              (init.2.topleft_corner.y + (row : ℚ) * init.2.step) init.2.current_it]?
                = some color ∧
            apply_writes (fun _ => 0) ws (0 + 3 * (row * 1280 + col)) = color.r ∧
            apply_writes (fun _ => 0) ws (0 + 3 * (row * 1280 + col) + 1) = color.g ∧
            apply_writes (fun _ => 0) ws (0 + 3 * (row * 1280 + col) + 2) = color.b :=
  ⟨⟨by simp [init, make_colors, init_game], by simp [init, make_colors, init_game]⟩,
    C4_frame_equals_reference init.2 0 (fun _ => 0)
      (by simp [init, make_colors, init_game]) (by simp [init, make_colors, init_game])⟩

theorem C6_frame_bytes_written_once_witness :
    (({ init_game with current_it := 10, colors := (List.range 10).map (make_color 10) } :
        Game).colors.length = 10 ∧ 1 ≤ 10) ∧
    ∃ wss, render_threaded screen
        { init_game with current_it := 10, colors := (List.range 10).map (make_color 10) } 0
          = some wss ∧
      wss.length = 6 ∧
      wss.flatten.map Write.addr = List.range' 0 (1280 * 720 * 3) ∧
      (∀ a, (wss.flatten.map Write.addr).count a =
        if 0 ≤ a ∧ a < 0 + 1280 * 720 * 3 then 1 else 0) ∧
      ∀ i, i < 6 → ∃ band ws, (bands screen
          { init_game with current_it := 10, colors := (List.range 10).map (make_color 10) }
            0)[i]? = some band ∧
        wss[i]? = some ws ∧ render_thread screen band = some ws ∧
        ws.map Write.addr = List.range' band.pixels (band.num_rows * 1280 * 3) ∧
        band.pixels = 0 + i * 120 * 1280 * 3 ∧ band.num_rows = 120 :=
  ⟨⟨by simp, by decide⟩,
    C6_frame_bytes_written_once
      { init_game with current_it := 10, colors := (List.range 10).map (make_color 10) } 0
      (by simp) (by decide)⟩


/-! ## Evaluator: points outside the radius, the origin, change of bound -/

theorem escape_loop_first_pass (x y : ℚ) (rem : Nat) (hc : x ^ 2 + y ^ 2 > 4) :
    escape_loop x y (rem + 1) 0 0 0 = 1 := by
  have h : ((0 : ℚ) * 0 - 0 * 0 + x) * ((0 : ℚ) * 0 - 0 * 0 + x)
      + ((0 : ℚ) * 0 + 0 * 0 + y) * ((0 : ℚ) * 0 + 0 * 0 + y) > 4 := by
    have e : ((0 : ℚ) * 0 - 0 * 0 + x) * ((0 : ℚ) * 0 - 0 * 0 + x)
      + ((0 : ℚ) * 0 + 0 * 0 + y) * ((0 : ℚ) * 0 + 0 * 0 + y) = x ^ 2 + y ^ 2 := by ring
    rw [e]; exact hc
  simp only [escape_loop]
  rw [if_pos h]

/-! ## Evaluator: double arithmetic -/

/-! ## Rounding lemmas -/

theorem round_half_even_near (r : ℚ) (n : Int) (h : |r - (n : ℚ)| < 1 / 2) :
    round_half_even r = n := by
  rw [abs_lt] at h
  obtain ⟨h1, h2⟩ := h
  unfold round_half_even
  by_cases hge : (n : ℚ) ≤ r
  · have hf : ⌊r⌋ = n := Int.floor_eq_iff.2 ⟨hge, by linarith⟩
    rw [hf, if_pos (by linarith)]
  · have hf : ⌊r⌋ = n - 1 := Int.floor_eq_iff.2 ⟨by push_cast; linarith, by push_cast; linarith⟩
    rw [hf]
    have e : ((n - 1 : Int) : ℚ) = (n : ℚ) - 1 := by push_cast; ring
    rw [e, if_neg (by linarith), if_pos (by linarith)]
    ring

theorem int_log_two_eq (r : ℚ) (e : Int) (h1 : (2 : ℚ) ^ e ≤ r) (h2 : r < (2 : ℚ) ^ (e + 1)) :
    Int.log 2 r = e := by
  have hpos : 0 < r := lt_of_lt_of_le (zpow_pos (by norm_num) e) h1
  have a : e ≤ Int.log 2 r := (Int.zpow_le_iff_le_log (by norm_num) hpos).1 (by exact_mod_cast h1)
  have b : Int.log 2 r < e + 1 := (Int.lt_zpow_iff_log_lt (by norm_num) hpos).1 (by exact_mod_cast h2)
  omega

/-- Rounding in a known binade: when `2^e ≤ |q| < 2^(e+1)` in the normal range and `q` is
less than half a unit in the last place away from `m * 2^(e-52)`, it rounds there. -/
theorem round_to_grid_near (q : ℚ) (e m : Int) (he : -1022 ≤ e) (h1 : (2 : ℚ) ^ e ≤ |q|)
    (h2 : |q| < (2 : ℚ) ^ (e + 1)) (hm : |q / (2 : ℚ) ^ (e - 52) - (m : ℚ)| < 1 / 2) :
    round_to_grid q = (m : ℚ) * (2 : ℚ) ^ (e - 52) := by
  have hq : q ≠ 0 := by
    intro h
    rw [h, abs_zero] at h1
    exact absurd h1 (not_le.2 (zpow_pos (by norm_num) e))
  have hu : ulp_exp q = e - 52 := by
    unfold ulp_exp
    rw [int_log_two_eq |q| e h1 h2, max_eq_left he]
  unfold round_to_grid
  rw [if_neg hq, hu, round_half_even_near _ m hm]

/-- A number `k / 2^n` with `|k| < 2^53` and `n ≤ 1074` is a double: it rounds to
itself. -/
theorem round_to_grid_exact (k : Int) (n : Nat) (hk : |k| < 2 ^ 53) (hn : n ≤ 1074) :
    round_to_grid ((k : ℚ) / 2 ^ n) = (k : ℚ) / 2 ^ n := by
  by_cases hk0 : k = 0
  · subst hk0; simp [round_to_grid]
  have hq : (k : ℚ) / 2 ^ n ≠ 0 := by
    have : (k : ℚ) ≠ 0 := by exact_mod_cast hk0
    positivity
  have habs : 0 < |(k : ℚ) / 2 ^ n| := abs_pos.2 hq
  -- the unit in the last place is at most `2^(-n)`
  have hlog : Int.log 2 |(k : ℚ) / 2 ^ n| < 53 - (n : Int) := by
    rw [← Int.lt_zpow_iff_log_lt (by norm_num) habs]
    have hk' : |(k : ℚ)| < 2 ^ 53 := by exact_mod_cast hk
    rw [abs_div, abs_of_pos (by positivity : (0 : ℚ) < 2 ^ n), div_lt_iff₀ (by positivity)]
    have e : ((2 : ℕ) : ℚ) ^ (53 - (n : Int)) * 2 ^ n = 2 ^ 53 := by
      rw [zpow_sub₀ (by norm_num), zpow_natCast]
      push_cast
      field_simp
      norm_num
    rw [e]
    exact hk'
  have hu : ulp_exp ((k : ℚ) / 2 ^ n) ≤ -(n : Int) := by
    unfold ulp_exp
    have : max (Int.log 2 |(k : ℚ) / 2 ^ n|) (-1022) ≤ 52 - (n : Int) := max_le (by omega) (by omega)
    omega
  obtain ⟨d, hd⟩ : ∃ d : Nat, ulp_exp ((k : ℚ) / 2 ^ n) = -(n : Int) - (d : Int) :=
    ⟨(-(n : Int) - ulp_exp ((k : ℚ) / 2 ^ n)).toNat, by omega⟩
  have hquot : (k : ℚ) / 2 ^ n / (2 : ℚ) ^ (-(n : Int) - (d : Int)) = ((k * 2 ^ d : Int) : ℚ) := by
    rw [zpow_sub₀ (by norm_num), zpow_neg, zpow_natCast, zpow_natCast]
    push_cast
    field_simp
    ring
  unfold round_to_grid
  rw [if_neg hq, hd, hquot, round_half_even_near _ (k * 2 ^ d) (by simp)]
  rw [zpow_sub₀ (by norm_num), zpow_neg, zpow_natCast, zpow_natCast]
  push_cast
  field_simp
  ring

theorem round64_exact (k : Int) (n : Nat) (hk : |k| < 2 ^ 53) (hn : n ≤ 1074) :
    round64 ((k : ℚ) / 2 ^ n) = F64.finite ((k : ℚ) / 2 ^ n) := by
  have hk' : |(k : ℚ)| < 2 ^ 53 := by exact_mod_cast hk
  have hb : |(k : ℚ) / 2 ^ n| < 2 ^ 53 := by
    rw [abs_div, abs_of_pos (by positivity : (0 : ℚ) < 2 ^ n), div_lt_iff₀ (by positivity)]
    calc |(k : ℚ)| < 2 ^ 53 := hk'
      _ = 2 ^ 53 * 1 := by ring
      _ ≤ 2 ^ 53 * 2 ^ n := by
        apply mul_le_mul_of_nonneg_left _ (by positivity)
        exact one_le_pow₀ (by norm_num)
  rw [abs_lt] at hb
  unfold round64
  rw [round_to_grid_exact k n hk hn]
  have h1024 : (2 : ℚ) ^ 53 < 2 ^ 1024 := by
    apply pow_lt_pow_right₀ (by norm_num) (by norm_num)
  rw [if_neg (by linarith [hb.2]), if_neg (by linarith [hb.1])]

theorem round64_exact_of_eq (q : ℚ) (k : Int) (n : Nat) (hq : q = (k : ℚ) / 2 ^ n)
    (hk : |k| < 2 ^ 53) (hn : n ≤ 1074) : round64 q = F64.finite q := by
  rw [hq]
  exact round64_exact k n hk hn

/-- Just above 4 the doubles are `2^-50` apart: `4 + t` with `0 ≤ t < 2^-51` rounds
to 4. -/
theorem round64_four_add (t : ℚ) (h0 : 0 ≤ t) (h1 : t < 1 / 2 ^ 51) :
    round64 (4 + t) = F64.finite 4 := by
  have hb : t < 1 := lt_trans h1 (by norm_num)
  have hg : round_to_grid (4 + t) = 4 := by
    rw [round_to_grid_near (4 + t) 2 (2 ^ 52) (by norm_num)
      (by rw [abs_of_pos (by linarith)]; norm_num; linarith)
      (by rw [abs_of_pos (by linarith)]; norm_num; linarith)
      (by
        have e : (4 + t) / (2 : ℚ) ^ ((2 : Int) - 52) - ((2 ^ 52 : Int) : ℚ) = t * 2 ^ 50 := by
          norm_num [zpow_neg]
          ring
        rw [e, abs_of_nonneg (by positivity)]
        have : t * 2 ^ 50 < 1 / 2 ^ 51 * 2 ^ 50 := by
          apply mul_lt_mul_of_pos_right h1 (by positivity)
        linarith [show (1 : ℚ) / 2 ^ 51 * 2 ^ 50 = 1 / 2 by norm_num])]
    norm_num [zpow_neg]
  unfold round64
  rw [hg, if_neg (by norm_num), if_neg (by norm_num)]

/-- Just below 4 the doubles are `2^-51` apart: `4 - t` with `0 < t < 2^-52` rounds
to 4. -/
theorem round64_four_sub (t : ℚ) (h0 : 0 < t) (h1 : t < 1 / 2 ^ 52) :
    round64 (4 - t) = F64.finite 4 := by
  have hb : t < 1 := lt_trans h1 (by norm_num)
  have hg : round_to_grid (4 - t) = 4 := by
    rw [round_to_grid_near (4 - t) 1 (2 ^ 53) (by norm_num)
      (by rw [abs_of_pos (by linarith)]; norm_num; linarith)
      (by rw [abs_of_pos (by linarith)]; norm_num; linarith)
      (by
        have e : (4 - t) / (2 : ℚ) ^ ((1 : Int) - 52) - ((2 ^ 53 : Int) : ℚ) = -(t * 2 ^ 51) := by
          norm_num [zpow_neg]
          ring
        rw [e, abs_neg, abs_of_nonneg (by positivity)]
        have : t * 2 ^ 51 < 1 / 2 ^ 52 * 2 ^ 51 := by
          apply mul_lt_mul_of_pos_right h1 (by positivity)
        linarith [show (1 : ℚ) / 2 ^ 52 * 2 ^ 51 = 1 / 2 by norm_num])]
    norm_num [zpow_neg]
  unfold round64
  rw [hg, if_neg (by norm_num), if_neg (by norm_num)]


/-! ## The loop in double arithmetic at `c = (-2, 2^-53)` -/

theorem sq_small (m : Int) (hm : |m| < 2 ^ 20) : |m * m| < 2 ^ 53 := by
  have h := abs_lt.1 hm
  rw [abs_lt]
  constructor <;> nlinarith

/-- The test of the loop at `z = (2, k / 2^53)` with a small integer `k`: the computed
squared modulus is exactly 4.0, not greater than 4.0. -/
theorem test_double_false (k : Int) (hk : |k| < 2 ^ 20) :
    F64.gt (F64.add (F64.mul (F64.finite 2) (F64.finite 2))
      (F64.mul (F64.finite ((k : ℚ) / 2 ^ 53)) (F64.finite ((k : ℚ) / 2 ^ 53))))
      (F64.finite 4) = false := by
  have h1 : F64.mul (F64.finite 2) (F64.finite 2) = F64.finite 4 := by
    show round64 (2 * 2) = _
    rw [round64_exact_of_eq (2 * 2) 4 0 (by norm_num) (by norm_num) (by norm_num)]
    norm_num
  have h2 : F64.mul (F64.finite ((k : ℚ) / 2 ^ 53)) (F64.finite ((k : ℚ) / 2 ^ 53))
      = F64.finite (((k * k : Int) : ℚ) / 2 ^ 106) := by
    show round64 ((k : ℚ) / 2 ^ 53 * ((k : ℚ) / 2 ^ 53)) = _
    have e : (k : ℚ) / 2 ^ 53 * ((k : ℚ) / 2 ^ 53) = ((k * k : Int) : ℚ) / 2 ^ 106 := by
      push_cast; ring
    rw [e]
    exact round64_exact (k * k) 106 (sq_small k hk) (by norm_num)
  have hk' : |(k : ℚ)| < 2 ^ 20 := by exact_mod_cast hk
  have hsq : ((k * k : Int) : ℚ) < 2 ^ 40 := by
    have h := abs_lt.1 hk'
    push_cast
    nlinarith
  have h3 : round64 (4 + ((k * k : Int) : ℚ) / 2 ^ 106) = F64.finite 4 := by
    apply round64_four_add
    · apply div_nonneg _ (by positivity)
      push_cast
      exact mul_self_nonneg _
    · rw [div_lt_iff₀ (by positivity)]
      calc ((k * k : Int) : ℚ) < 2 ^ 40 := hsq
        _ ≤ 1 / 2 ^ 51 * 2 ^ 106 := by norm_num
  rw [h1, h2]
  show F64.gt (round64 (4 + ((k * k : Int) : ℚ) / 2 ^ 106)) (F64.finite 4) = false
  rw [h3]
  simp [F64.gt]

/-- One pass of the loop at `c = (-2, 2^-53)` from `z = (±2, m / 2^53)` with a small
integer `m ≠ 0`: the new `z` is `(2, (2 * (±2) * m + 1) / 2^53)` exactly, and the test
does not fire. -/
theorem escape_pass_double (s m : Int) (hs : s = 2 ∨ s = -2) (hm0 : m ≠ 0)
    (hm : |m| < 2 ^ 18) (rem it : Nat) :
    escape_loop_double (F64.finite (-2)) (F64.finite (1 / 2 ^ 53)) (rem + 1) it
        (F64.finite (s : ℚ)) (F64.finite ((m : ℚ) / 2 ^ 53)) =
      escape_loop_double (F64.finite (-2)) (F64.finite (1 / 2 ^ 53)) rem (it + 1)
        (F64.finite 2) (F64.finite (((2 * s * m + 1 : Int) : ℚ) / 2 ^ 53)) := by
  have hmb := abs_lt.1 hm
  have hsb : |s| ≤ 2 := by rcases hs with rfl | rfl <;> decide
  have hsb' := abs_le.1 hsb
  have hm20 : |m| < 2 ^ 20 := lt_trans hm (by norm_num)
  have hss : (s : ℚ) * (s : ℚ) = 4 := by rcases hs with rfl | rfl <;> norm_num
  have hsm : |s * m| < 2 ^ 19 := by
    rw [abs_lt]
    rcases hs with rfl | rfl <;> constructor <;> omega
  -- zx * zx
  have h1 : F64.mul (F64.finite (s : ℚ)) (F64.finite (s : ℚ)) = F64.finite 4 := by
    show round64 ((s : ℚ) * (s : ℚ)) = _
    rw [hss, round64_exact_of_eq 4 4 0 (by norm_num) (by norm_num) (by norm_num)]
  -- zy * zy
  have h2 : F64.mul (F64.finite ((m : ℚ) / 2 ^ 53)) (F64.finite ((m : ℚ) / 2 ^ 53))
      = F64.finite (((m * m : Int) : ℚ) / 2 ^ 106) := by
    show round64 ((m : ℚ) / 2 ^ 53 * ((m : ℚ) / 2 ^ 53)) = _
    have e : (m : ℚ) / 2 ^ 53 * ((m : ℚ) / 2 ^ 53) = ((m * m : Int) : ℚ) / 2 ^ 106 := by
      push_cast; ring
    rw [e]
    exact round64_exact (m * m) 106 (sq_small m hm20) (by norm_num)
  -- zx * zx - zy * zy
  have hm' : |(m : ℚ)| < 2 ^ 18 := by exact_mod_cast hm
  have hmq : (m : ℚ) ≠ 0 := by exact_mod_cast hm0
  have h3 : F64.sub (F64.finite 4) (F64.finite (((m * m : Int) : ℚ) / 2 ^ 106)) = F64.finite 4 := by
    show round64 (4 + -(((m * m : Int) : ℚ) / 2 ^ 106)) = _
    rw [← sub_eq_add_neg]
    apply round64_four_sub
    · apply div_pos _ (by positivity)
      push_cast
      exact mul_self_pos.2 hmq
    · rw [div_lt_iff₀ (by positivity)]
      have h := abs_lt.1 hm'
      have : ((m * m : Int) : ℚ) < 2 ^ 36 := by push_cast; nlinarith
      calc ((m * m : Int) : ℚ) < 2 ^ 36 := this
        _ ≤ 1 / 2 ^ 52 * 2 ^ 106 := by norm_num
  -- (zx * zx - zy * zy) + x
  have h4 : F64.add (F64.finite 4) (F64.finite (-2)) = F64.finite 2 := by
    show round64 (4 + -2) = _
    rw [round64_exact_of_eq (4 + -2) 2 0 (by norm_num) (by norm_num) (by norm_num)]
    norm_num
  -- zx * zy and zy * zx
  have h5 : F64.mul (F64.finite (s : ℚ)) (F64.finite ((m : ℚ) / 2 ^ 53))
      = F64.finite (((s * m : Int) : ℚ) / 2 ^ 53) := by
    show round64 ((s : ℚ) * ((m : ℚ) / 2 ^ 53)) = _
    have e : (s : ℚ) * ((m : ℚ) / 2 ^ 53) = ((s * m : Int) : ℚ) / 2 ^ 53 := by
      push_cast; ring
    rw [e]
    exact round64_exact (s * m) 53 (lt_trans hsm (by norm_num)) (by norm_num)
  have h6 : F64.mul (F64.finite ((m : ℚ) / 2 ^ 53)) (F64.finite (s : ℚ))
      = F64.finite (((s * m : Int) : ℚ) / 2 ^ 53) := by
    show round64 ((m : ℚ) / 2 ^ 53 * (s : ℚ)) = _
    have e : (m : ℚ) / 2 ^ 53 * (s : ℚ) = ((s * m : Int) : ℚ) / 2 ^ 53 := by
      push_cast; ring
    rw [e]
    exact round64_exact (s * m) 53 (lt_trans hsm (by norm_num)) (by norm_num)
  -- zx * zy + zy * zx
  have hsm' := abs_lt.1 hsm
  have hassoc : 2 * s * m = 2 * (s * m) := by ring
  have h7 : F64.add (F64.finite (((s * m : Int) : ℚ) / 2 ^ 53))
      (F64.finite (((s * m : Int) : ℚ) / 2 ^ 53)) = F64.finite (((2 * s * m : Int) : ℚ) / 2 ^ 53) := by
    show round64 (((s * m : Int) : ℚ) / 2 ^ 53 + ((s * m : Int) : ℚ) / 2 ^ 53) = _
    have e : ((s * m : Int) : ℚ) / 2 ^ 53 + ((s * m : Int) : ℚ) / 2 ^ 53
        = ((2 * s * m : Int) : ℚ) / 2 ^ 53 := by
      push_cast; ring
    rw [e]
    exact round64_exact (2 * s * m) 53 (by rw [abs_lt]; constructor <;> omega) (by norm_num)
  -- (zx * zy + zy * zx) + y
  have h8 : F64.add (F64.finite (((2 * s * m : Int) : ℚ) / 2 ^ 53)) (F64.finite (1 / 2 ^ 53))
      = F64.finite (((2 * s * m + 1 : Int) : ℚ) / 2 ^ 53) := by
    show round64 (((2 * s * m : Int) : ℚ) / 2 ^ 53 + 1 / 2 ^ 53) = _
    have e : ((2 * s * m : Int) : ℚ) / 2 ^ 53 + 1 / 2 ^ 53
        = ((2 * s * m + 1 : Int) : ℚ) / 2 ^ 53 := by
      push_cast; ring
    rw [e]
    exact round64_exact (2 * s * m + 1) 53 (by rw [abs_lt]; constructor <;> omega) (by norm_num)
  have htest := test_double_false (2 * s * m + 1) (by rw [abs_lt]; constructor <;> omega)
  simp only [escape_loop_double, h1, h2, h3, h4, h5, h6, h7, h8, htest]
  simp

theorem round64_zero : round64 0 = F64.finite 0 := by
  rw [round64_exact_of_eq 0 0 0 (by norm_num) (by norm_num) (by norm_num)]

theorem add_zero_double (x : F64) (hx : x.is_double) : F64.add (F64.finite 0) x = x := by
  cases x with
  | finite q =>
    show round64 (0 + q) = _
    rw [zero_add]
    exact hx
  | pinf => rfl
  | ninf => rfl
  | nan => rfl

/-- The first pass of the loop in double arithmetic: from `z = 0` the new `z` is `c`
itself, so the test compares the computed squared modulus of `c` with 4.0. -/
theorem escape_first_pass_double (x y : F64) (hx : x.is_double) (hy : y.is_double)
    (rem it : Nat) :
    escape_loop_double x y (rem + 1) it (F64.finite 0) (F64.finite 0) =
      if F64.gt (F64.add (F64.mul x x) (F64.mul y y)) (F64.finite 4) = true then it + 1
      else escape_loop_double x y rem (it + 1) x y := by
  have h0 : F64.mul (F64.finite 0) (F64.finite 0) = F64.finite 0 := by
    show round64 (0 * 0) = _
    rw [mul_zero, round64_zero]
  have h1 : F64.sub (F64.finite 0) (F64.finite 0) = F64.finite 0 := by
    show round64 (0 + -0) = _
    rw [neg_zero, add_zero, round64_zero]
  have h2 : F64.add (F64.finite 0) (F64.finite 0) = F64.finite 0 := by
    show round64 (0 + 0) = _
    rw [add_zero, round64_zero]
  simp only [escape_loop_double, h0, h1, h2, add_zero_double x hx, add_zero_double y hy]

theorem near_circle_x : (F64.finite (-2)).is_double :=
  round64_exact_of_eq (-2) (-2) 0 (by norm_num) (by norm_num) (by norm_num)

theorem near_circle_y : (F64.finite (1 / 2 ^ 53)).is_double :=
  round64_exact_of_eq (1 / 2 ^ 53) 1 53 (by norm_num) (by norm_num) (by norm_num)

/-- At `c = (-2, 2^-53)` the computed squared modulus of `c` is exactly 4.0. -/
theorem near_circle_test :
    F64.add (F64.mul (F64.finite (-2)) (F64.finite (-2)))
      (F64.mul (F64.finite (1 / 2 ^ 53)) (F64.finite (1 / 2 ^ 53))) = F64.finite 4 := by
  have hxx : F64.mul (F64.finite (-2)) (F64.finite (-2)) = F64.finite 4 := by
    show round64 (-2 * -2) = _
    rw [round64_exact_of_eq (-2 * -2) 4 0 (by norm_num) (by norm_num) (by norm_num)]
    norm_num
  have hyy : F64.mul (F64.finite (1 / 2 ^ 53)) (F64.finite (1 / 2 ^ 53))
      = F64.finite (1 / 2 ^ 106) := by
    show round64 (1 / 2 ^ 53 * (1 / 2 ^ 53)) = _
    rw [round64_exact_of_eq (1 / 2 ^ 53 * (1 / 2 ^ 53)) 1 106 (by norm_num) (by norm_num)
      (by norm_num)]
    norm_num
  rw [hxx, hyy]
  exact round64_four_add (1 / 2 ^ 106) (by positivity) (by norm_num)

theorem near_circle_pass_one :
    escape_loop_double (F64.finite (-2)) (F64.finite (1 / 2 ^ 53)) 10 0
        (F64.finite 0) (F64.finite 0) =
      escape_loop_double (F64.finite (-2)) (F64.finite (1 / 2 ^ 53)) 9 1
        (F64.finite (-2)) (F64.finite (1 / 2 ^ 53)) := by
  have p1 := escape_first_pass_double (F64.finite (-2)) (F64.finite (1 / 2 ^ 53))
    near_circle_x near_circle_y 9 0
  rw [near_circle_test] at p1
  have hf : ¬ (F64.gt (F64.finite 4) (F64.finite 4) = true) := by simp [F64.gt]
  rw [if_neg hf] at p1
  exact p1

/-- Form of `escape_pass_double` with the values of `z` given as rationals. -/
theorem escape_pass_double_at (s m : Int) (zx zy zy1 : ℚ) (hs : s = 2 ∨ s = -2) (hm0 : m ≠ 0)
    (hm : |m| < 2 ^ 18) (hzx : zx = (s : ℚ)) (hzy : zy = (m : ℚ) / 2 ^ 53)
    (hzy1 : zy1 = ((2 * s * m + 1 : Int) : ℚ) / 2 ^ 53) (rem it : Nat) :
    escape_loop_double (F64.finite (-2)) (F64.finite (1 / 2 ^ 53)) (rem + 1) it
        (F64.finite zx) (F64.finite zy) =
      escape_loop_double (F64.finite (-2)) (F64.finite (1 / 2 ^ 53)) rem (it + 1)
        (F64.finite 2) (F64.finite zy1) := by
  rw [hzx, hzy, hzy1]
  exact escape_pass_double s m hs hm0 hm rem it

/-- At `c = (-2, 2^-53)` none of the passes 2 to 10 fires the test: `z` stays at
`(2, m / 2^53)` with `m = -3, -11, -43, ...`, whose computed squared modulus is 4.0. -/
theorem near_circle_passes :
    escape_loop_double (F64.finite (-2)) (F64.finite (1 / 2 ^ 53)) 9 1
        (F64.finite (-2)) (F64.finite (1 / 2 ^ 53)) = 10 := by
  rw [escape_pass_double_at (-2) 1 (-2) (1 / 2 ^ 53) (-3 / 2 ^ 53) (Or.inr rfl)
    (by norm_num) (by norm_num) (by norm_num) (by norm_num) (by norm_num) 8 1]
  rw [escape_pass_double_at 2 (-3) 2 (-3 / 2 ^ 53) (-11 / 2 ^ 53) (Or.inl rfl)
    (by norm_num) (by norm_num) (by norm_num) (by norm_num) (by norm_num) 7 (1 + 1)]
  rw [escape_pass_double_at 2 (-11) 2 (-11 / 2 ^ 53) (-43 / 2 ^ 53) (Or.inl rfl)
    (by norm_num) (by norm_num) (by norm_num) (by norm_num) (by norm_num) 6 (1 + 1 + 1)]
  rw [escape_pass_double_at 2 (-43) 2 (-43 / 2 ^ 53) (-171 / 2 ^ 53) (Or.inl rfl)
    (by norm_num) (by norm_num) (by norm_num) (by norm_num) (by norm_num) 5 (1 + 1 + 1 + 1)]
  rw [escape_pass_double_at 2 (-171) 2 (-171 / 2 ^ 53) (-683 / 2 ^ 53) (Or.inl rfl)
    (by norm_num) (by norm_num) (by norm_num) (by norm_num) (by norm_num) 4
    (1 + 1 + 1 + 1 + 1)]
  rw [escape_pass_double_at 2 (-683) 2 (-683 / 2 ^ 53) (-2731 / 2 ^ 53) (Or.inl rfl)
    (by norm_num) (by norm_num) (by norm_num) (by norm_num) (by norm_num) 3
    (1 + 1 + 1 + 1 + 1 + 1)]
  rw [escape_pass_double_at 2 (-2731) 2 (-2731 / 2 ^ 53) (-10923 / 2 ^ 53) (Or.inl rfl)
    (by norm_num) (by norm_num) (by norm_num) (by norm_num) (by norm_num) 2
    (1 + 1 + 1 + 1 + 1 + 1 + 1)]
  rw [escape_pass_double_at 2 (-10923) 2 (-10923 / 2 ^ 53) (-43691 / 2 ^ 53) (Or.inl rfl)
    (by norm_num) (by norm_num) (by norm_num) (by norm_num) (by norm_num) 1
    (1 + 1 + 1 + 1 + 1 + 1 + 1 + 1)]
  rw [escape_pass_double_at 2 (-43691) 2 (-43691 / 2 ^ 53) (-174763 / 2 ^ 53) (Or.inl rfl)
    (by norm_num) (by norm_num) (by norm_num) (by norm_num) (by norm_num) 0
    (1 + 1 + 1 + 1 + 1 + 1 + 1 + 1 + 1)]
  simp only [escape_loop_double]

theorem far_point_x : (F64.finite 3).is_double :=
  round64_exact_of_eq 3 3 0 (by norm_num) (by norm_num) (by norm_num)

/-- At `c = (3, 0)` the computed squared modulus is 9.0, greater than 4.0. -/
theorem far_point_test :
    F64.gt (F64.add (F64.mul (F64.finite 3) (F64.finite 3))
      (F64.mul (F64.finite 0) (F64.finite 0))) (F64.finite 4) = true := by
  have h1 : F64.mul (F64.finite 3) (F64.finite 3) = F64.finite 9 := by
    show round64 (3 * 3) = _
    rw [round64_exact_of_eq (3 * 3) 9 0 (by norm_num) (by norm_num) (by norm_num)]
    norm_num
  have h2 : F64.mul (F64.finite 0) (F64.finite 0) = F64.finite 0 := by
    show round64 (0 * 0) = _
    rw [mul_zero, round64_zero]
  have h3 : F64.add (F64.finite 9) (F64.finite 0) = F64.finite 9 := by
    show round64 (9 + 0) = _
    rw [round64_exact_of_eq (9 + 0) 9 0 (by norm_num) (by norm_num) (by norm_num)]
    norm_num
  rw [h1, h2, h3]
  norm_num [F64.gt]

/-- C12, as stated, fails in the double arithmetic of the program: `c = (-2, 2^-53)` has
`x² + y² > 4`, both coordinates are doubles, and with the bound 10 the computed squared
modulus is 4.0 at every pass (`4 + 2^-106` rounds to 4.0), so the loop runs its 10 passes
and the index is 9, the never-escaped index. -/
theorem C12_counterexample :
    (-2 : ℚ) ^ 2 + ((1 : ℚ) / 2 ^ 53) ^ 2 > 4 ∧
    (F64.finite (-2)).is_double ∧ (F64.finite (1 / 2 ^ 53)).is_double ∧
    escape_count_double (F64.finite (-2)) (F64.finite (1 / 2 ^ 53)) 10 = 10 ∧
    escape_index_double (F64.finite (-2)) (F64.finite (1 / 2 ^ 53)) 10 = 9 ∧
    ¬ (escape_index_double (F64.finite (-2)) (F64.finite (1 / 2 ^ 53)) 10 < 10 - 1) := by
  have hcount : escape_count_double (F64.finite (-2)) (F64.finite (1 / 2 ^ 53)) 10 = 10 := by
    unfold escape_count_double
    rw [near_circle_pass_one, near_circle_passes]
  have hidx : escape_index_double (F64.finite (-2)) (F64.finite (1 / 2 ^ 53)) 10 = 9 := by
    unfold escape_index_double
    rw [hcount]
    rfl
  refine ⟨by norm_num, near_circle_x, near_circle_y, hcount, hidx, ?_⟩
  rw [hidx]
  decide

/-- C12 (amended): for every bound `n ≥ 2` (so for every valid bound `n ≥ 10`): in exact
arithmetic, for every `c = (x, y)` with `x² + y² > 4` the threshold is crossed on the
first pass, the loop is left with count 1 and the index is 0, strictly below the
never-escaped index `n - 1`; in the double arithmetic of the program the same holds for
every double `c` whose computed squared modulus `x*x + y*y` compares greater than 4.0. -/
theorem C12_outside_radius_two (x y : ℚ) (xd yd : F64) (n : Nat) (hn : 2 ≤ n) :
    (x ^ 2 + y ^ 2 > 4 →
      escape_count x y n = 1 ∧ escape_index x y n = 0 ∧ escape_index x y n < n - 1) ∧
    (xd.is_double → yd.is_double →
      F64.gt (F64.add (F64.mul xd xd) (F64.mul yd yd)) (F64.finite 4) = true →
      escape_count_double xd yd n = 1 ∧ escape_index_double xd yd n = 0 ∧
      escape_index_double xd yd n < n - 1) := by
  obtain ⟨m, rfl⟩ : ∃ m, n = m + 1 := ⟨n - 1, by omega⟩
  constructor
  · intro hc
    have h1 : escape_count x y (m + 1) = 1 := escape_loop_first_pass x y m hc
    have h2 : escape_index x y (m + 1) = 0 := by
      unfold escape_index dec64
      rw [h1]
      rfl
    exact ⟨h1, h2, by rw [h2]; omega⟩
  · intro hxd hyd htest
    have h1 : escape_count_double xd yd (m + 1) = 1 := by
      unfold escape_count_double
      rw [escape_first_pass_double xd yd hxd hyd m 0, if_pos htest]
    have h2 : escape_index_double xd yd (m + 1) = 0 := by
      unfold escape_index_double dec64
      rw [h1]
      rfl
    exact ⟨h1, h2, by rw [h2]; omega⟩

theorem C12_outside_radius_two_witness :
    (2 ≤ 10 ∧ (3 : ℚ) ^ 2 + (0 : ℚ) ^ 2 > 4 ∧
      (F64.finite 3).is_double ∧ (F64.finite 0).is_double ∧
      F64.gt (F64.add (F64.mul (F64.finite 3) (F64.finite 3))
        (F64.mul (F64.finite 0) (F64.finite 0))) (F64.finite 4) = true) ∧
    (escape_count 3 0 10 = 1 ∧ escape_index 3 0 10 = 0 ∧ escape_index 3 0 10 < 10 - 1) ∧
    (escape_count_double (F64.finite 3) (F64.finite 0) 10 = 1 ∧
      escape_index_double (F64.finite 3) (F64.finite 0) 10 = 0 ∧
      escape_index_double (F64.finite 3) (F64.finite 0) 10 < 10 - 1) :=
  ⟨⟨by decide, by norm_num, far_point_x, round64_zero, far_point_test⟩,
    (C12_outside_radius_two 3 0 (F64.finite 3) (F64.finite 0) 10 (by decide)).1 (by norm_num),
    (C12_outside_radius_two 3 0 (F64.finite 3) (F64.finite 0) 10 (by decide)).2
      far_point_x round64_zero far_point_test⟩

theorem escape_loop_origin (rem : Nat) : ∀ it : Nat, escape_loop 0 0 rem it 0 0 = it + rem := by
  induction rem with
  | zero => intro it; rfl
  | succ rem ih =>
    intro it
    have h : ¬ (((0 : ℚ) * 0 - 0 * 0 + 0) * ((0 : ℚ) * 0 - 0 * 0 + 0)
        + ((0 : ℚ) * 0 + 0 * 0 + 0) * ((0 : ℚ) * 0 + 0 * 0 + 0) > 4) := by norm_num
    have e1 : ((0 : ℚ) * 0 - 0 * 0 + 0) = 0 := by norm_num
    have e2 : ((0 : ℚ) * 0 + 0 * 0 + 0) = 0 := by norm_num
    simp only [escape_loop]
    rw [if_neg h, e1, e2, ih (it + 1)]
    omega

theorem orbit_origin (k : Nat) : orbit (0, 0) k = (0, 0) := by
  induction k with
  | zero => rfl
  | succ k ih =>
    show sq_add (orbit (0, 0) k) (0, 0) = (0, 0)
    rw [ih]
    simp [sq_add]

/-- C13: for `c = 0` and every bound `n ≥ 1` the threshold is never crossed: the loop runs
its `n` passes and the index is `n - 1`, the never-escaped (black) entry. -/
theorem C13_origin_never_escapes (n : Nat) (hn : 1 ≤ n) :
    (∀ k, ¬ crosses (0, 0) k) ∧ escape_count 0 0 n = n ∧ escape_index 0 0 n = n - 1 := by
  have h1 : escape_count 0 0 n = n := by
    unfold escape_count
    rw [escape_loop_origin n 0, Nat.zero_add]
  refine ⟨?_, h1, ?_⟩
  · intro k
    simp only [crosses, orbit_origin, norm_sq]
    norm_num
  · rw [escape_index_eq 0 0 n hn, h1]

theorem C13_origin_never_escapes_witness :
    1 ≤ 100 ∧
    ((∀ k, ¬ crosses (0, 0) k) ∧ escape_count 0 0 100 = 100 ∧ escape_index 0 0 100 = 100 - 1) :=
  ⟨by decide, C13_origin_never_escapes 100 (by decide)⟩

/-- The loop with fewer passes allowed leaves with the smaller of the count with more
passes and its own last count. -/
theorem escape_loop_min (x y : ℚ) (n : Nat) :
    ∀ (m it : Nat) (zx zy : ℚ), n ≤ m →
      escape_loop x y n it zx zy = min (escape_loop x y m it zx zy) (it + n) := by
  induction n with
  | zero =>
    intro m it zx zy _
    have := escape_loop_ge x y m it zx zy
    simp only [escape_loop, Nat.add_zero]
    omega
  | succ n ih =>
    intro m it zx zy hnm
    obtain ⟨m, rfl⟩ : ∃ k, m = k + 1 := ⟨m - 1, by omega⟩
    simp only [escape_loop]
    split
    · omega
    · rw [ih m (it + 1) _ _ (by omega)]
      omega

/-- C18: for every point and all bounds `1 ≤ n ≤ m`,
`index(c, n) = min(index(c, m), n - 1)`; so a point that escaped before the last allowed
step under the bound `n` keeps its index under the larger bound `m`, and the index does
not decrease when the bound is raised. -/
theorem C18_index_consistent (x y : ℚ) (n m : Nat) (hn : 1 ≤ n) (hnm : n ≤ m) :
    escape_index x y n = min (escape_index x y m) (n - 1) ∧
    (escape_index x y n < n - 1 → escape_index x y m = escape_index x y n) ∧
    escape_index x y n ≤ escape_index x y m := by
  have hcount : escape_count x y n = min (escape_count x y m) n := by
    have := escape_loop_min x y n m 0 0 0 hnm
    simpa [escape_count] using this
  have h1 := escape_count_bounds x y n hn
  have h2 := escape_count_bounds x y m (by omega)
  rw [escape_index_eq x y n hn, escape_index_eq x y m (by omega)]
  omega

theorem C18_index_consistent_witness :
    (1 ≤ 10 ∧ 10 ≤ 100) ∧
    (escape_index (1 / 4) (1 / 2) 10 = min (escape_index (1 / 4) (1 / 2) 100) (10 - 1) ∧
    (escape_index (1 / 4) (1 / 2) 10 < 10 - 1 →
      escape_index (1 / 4) (1 / 2) 100 = escape_index (1 / 4) (1 / 2) 10) ∧
    escape_index (1 / 4) (1 / 2) 10 ≤ escape_index (1 / 4) (1 / 2) 100) :=
  ⟨by decide, C18_index_consistent (1 / 4) (1 / 2) 10 100 (by decide) (by decide)⟩


/-! ## Input: sequences of clicks, other events, the step invariant -/

theorem handle_event_left (game : Game) (x y : Int) :
    handle_event game (Event.mouseButtonDown SDL_BUTTON_LEFT x y) =
      some { game with
        topleft_corner :=
          ⟨game.topleft_corner.x + game.step * ((x : ℚ) - (SCREEN_WIDTH : ℚ) / 4),
           game.topleft_corner.y + game.step * ((y : ℚ) - (SCREEN_HEIGHT : ℚ) / 4)⟩
        step := game.step / 2
        rendered := 0 } := by
  simp only [handle_event, if_true]

theorem handle_event_right (game : Game) (x y : Int) :
    handle_event game (Event.mouseButtonDown SDL_BUTTON_RIGHT x y) =
      some { game with
        topleft_corner :=
          ⟨game.topleft_corner.x - game.step * (SCREEN_WIDTH : ℚ) / 2,
           game.topleft_corner.y - game.step * (SCREEN_HEIGHT : ℚ) / 2⟩
        step := game.step * 2
        rendered := 0 } := by
  have h : ¬ (SDL_BUTTON_RIGHT = SDL_BUTTON_LEFT) := by decide
  simp only [handle_event, if_neg h, if_true]

/-- C14: for every viewport (in particular with `step > 0`) and every click position
`(x, y)`, a primary-button click at `(x, y)` followed immediately by a secondary-button
click (at any position) restores `step`, and the resulting origin is
`origin + step * (x - 1280/2, y - 720/2)`; nothing else changes except that `rendered`
is cleared. -/
theorem C14_zoom_round_trip (game : Game) (x y x2 y2 : Int) :
    ∃ game2,
      input game [Event.mouseButtonDown SDL_BUTTON_LEFT x y,
        Event.mouseButtonDown SDL_BUTTON_RIGHT x2 y2] = some game2 ∧
      game2.step = game.step ∧
      game2.topleft_corner.x = game.topleft_corner.x + game.step * ((x : ℚ) - 1280 / 2) ∧
      game2.topleft_corner.y = game.topleft_corner.y + game.step * ((y : ℚ) - 720 / 2) ∧
      game2.rendered = 0 ∧ game2.current_it = game.current_it ∧
      game2.last_it = game.last_it ∧ game2.colors = game.colors ∧
      game2.remake_colors = game.remake_colors := by
  refine ⟨_, by simp only [input, handle_event_left, handle_event_right]; rfl, ?_⟩
  simp only [SCREEN_WIDTH, SCREEN_HEIGHT, Nat.cast_ofNat]
  refine ⟨?_, ?_, ?_, trivial, trivial, trivial, trivial, trivial⟩ <;> ring

/-- C19: for every viewport, a primary-button click at the screen centre `(640, 360)`
followed by a secondary-button click restores origin and step exactly, and so does a
secondary-button click followed by a primary-button click at `(640, 360)`; in both cases
the whole state is the one before, with `rendered` cleared. -/
theorem C19_centre_clicks_inverse (game : Game) (x2 y2 : Int) :
    input game [Event.mouseButtonDown SDL_BUTTON_LEFT 640 360,
      Event.mouseButtonDown SDL_BUTTON_RIGHT x2 y2] = some { game with rendered := 0 } ∧
    input game [Event.mouseButtonDown SDL_BUTTON_RIGHT x2 y2,
      Event.mouseButtonDown SDL_BUTTON_LEFT 640 360] = some { game with rendered := 0 } ∧
    ({ game with rendered := 0 } : Game).topleft_corner = game.topleft_corner ∧
    ({ game with rendered := 0 } : Game).step = game.step := by
  refine ⟨?_, ?_, rfl, rfl⟩
  · simp only [input, handle_event_left, handle_event_right, SCREEN_WIDTH, SCREEN_HEIGHT,
      Nat.cast_ofNat, Int.cast_ofNat]
    have e1 : game.topleft_corner.x + game.step * ((640 : ℚ) - 1280 / 4) - game.step / 2 * 1280 / 2
        = game.topleft_corner.x := by ring
    have e2 : game.topleft_corner.y + game.step * ((360 : ℚ) - 720 / 4) - game.step / 2 * 720 / 2
        = game.topleft_corner.y := by ring
    have e3 : game.step / 2 * 2 = game.step := by ring
    rw [e1, e2, e3]
  · simp only [input, handle_event_left, handle_event_right, SCREEN_WIDTH, SCREEN_HEIGHT,
      Nat.cast_ofNat, Int.cast_ofNat]
    have e1 : game.topleft_corner.x - game.step * 1280 / 2 + game.step * 2 * ((640 : ℚ) - 1280 / 4)
        = game.topleft_corner.x := by ring
    have e2 : game.topleft_corner.y - game.step * 720 / 2 + game.step * 2 * ((360 : ℚ) - 720 / 4)
        = game.topleft_corner.y := by ring
    have e3 : game.step * 2 / 2 = game.step := by ring
    rw [e1, e2, e3]

/-- C15, as stated, fails: with `rendered = 1` (the state in which `input` is called) a
press of the middle mouse button (button 2) clears `rendered`, and a press of the key `a`
(code 97) clears `rendered` and sets `remake_colors`. -/
theorem C15_counterexample :
    ({ init_game with rendered := 1 } : Game).rendered = 1 ∧
    ({ init_game with rendered := 1 } : Game).remake_colors = 0 ∧
    (handle_event { init_game with rendered := 1 } (Event.mouseButtonDown 2 0 0)).map
      Game.rendered = some 0 ∧
    (handle_event { init_game with rendered := 1 } (Event.keyDown 97)).map
      (fun g => (g.rendered, g.remake_colors)) = some (0, 1) := by
  refine ⟨rfl, rfl, rfl, rfl⟩

/-- C15 (amended): an event that is neither a mouse-button press, a key press nor quit has
no effect; a press of a mouse button other than the primary and secondary ones leaves the
viewport, the bound, the palette and `remake_colors` unchanged and clears `rendered`; a
press of a key other than `n` and `m` leaves the viewport, the bound and the palette
unchanged, sets `remake_colors` and clears `rendered`. -/
theorem C15_other_events (game : Game) (button : Nat) (x y : Int) (sym : Int)
    (hb1 : button ≠ SDL_BUTTON_LEFT) (hb2 : button ≠ SDL_BUTTON_RIGHT)
    (hk1 : sym ≠ SDLK_n) (hk2 : sym ≠ SDLK_m) :
    handle_event game Event.other = some game ∧
    handle_event game (Event.mouseButtonDown button x y) = some { game with rendered := 0 } ∧
    handle_event game (Event.keyDown sym) =
      some { game with remake_colors := 1, rendered := 0 } := by
  refine ⟨rfl, ?_, ?_⟩
  · simp only [handle_event, if_neg hb1, if_neg hb2]
  · simp only [handle_event, if_neg hk1, if_neg hk2]

theorem C15_other_events_witness :
    ((2 : Nat) ≠ SDL_BUTTON_LEFT ∧ (2 : Nat) ≠ SDL_BUTTON_RIGHT ∧
      (97 : Int) ≠ SDLK_n ∧ (97 : Int) ≠ SDLK_m) ∧
    (handle_event init.2 Event.other = some init.2 ∧
    handle_event init.2 (Event.mouseButtonDown 2 5 7) = some { init.2 with rendered := 0 } ∧
    handle_event init.2 (Event.keyDown 97) =
      some { init.2 with remake_colors := 1, rendered := 0 }) :=
  ⟨⟨by decide, by decide, by decide, by decide⟩,
    C15_other_events init.2 2 5 7 97 (by decide) (by decide) (by decide) (by decide)⟩


/-! ## Invariants of the input loop -/

/-- What one event can do to the state. -/
theorem handle_event_cases (game game1 : Game) (e : Event)
    (h : handle_event game e = some game1) :
    game1.colors = game.colors ∧
    ((game1.current_it = game.current_it ∧ game1.remake_colors = game.remake_colors) ∨
      game1.remake_colors = 1) ∧
    (game1.step = game.step / 2 ∨ game1.step = game.step * 2 ∨ game1.step = game.step) ∧
    (game1.current_it = game.current_it ∨
      (game.current_it > 100 ∧ game1.current_it = game.current_it - 100) ∨
      (game.current_it ≤ 100 ∧ game1.current_it = 10) ∨
      (game.current_it = 10 ∧ game1.current_it = 100) ∨
      (game.current_it ≠ 10 ∧ game1.current_it = add64 game.current_it 100)) := by
  cases e with
  | mouseButtonDown button x y =>
    simp only [handle_event, Option.some.injEq] at h
    subst h
    split_ifs
    · exact ⟨rfl, Or.inl ⟨rfl, rfl⟩, Or.inl rfl, Or.inl rfl⟩
    · exact ⟨rfl, Or.inl ⟨rfl, rfl⟩, Or.inr (Or.inl rfl), Or.inl rfl⟩
    · exact ⟨rfl, Or.inl ⟨rfl, rfl⟩, Or.inr (Or.inr rfl), Or.inl rfl⟩
  | keyDown sym =>
    by_cases h1 : sym = SDLK_n
    · subst h1
      rw [handle_event_n, Option.some.injEq] at h
      subst h
      refine ⟨rfl, Or.inr rfl, Or.inr (Or.inr rfl), ?_⟩
      show (if game.current_it > 100 then game.current_it - 100
        else if game.current_it > 10 then 10 else game.current_it) = game.current_it ∨ _
      split_ifs with a b
      · exact Or.inr (Or.inl ⟨a, rfl⟩)
      · exact Or.inr (Or.inr (Or.inl ⟨by omega, rfl⟩))
      · exact Or.inl rfl
    · by_cases h2 : sym = SDLK_m
      · subst h2
        rw [handle_event_m, Option.some.injEq] at h
        subst h
        refine ⟨rfl, Or.inr rfl, Or.inr (Or.inr rfl), ?_⟩
        show (if game.current_it = 10 then 100 else add64 game.current_it 100)
          = game.current_it ∨ _
        split_ifs with a
        · exact Or.inr (Or.inr (Or.inr (Or.inl ⟨a, rfl⟩)))
        · exact Or.inr (Or.inr (Or.inr (Or.inr ⟨a, rfl⟩)))
      · simp only [handle_event, if_neg h1, if_neg h2, Option.some.injEq] at h
        subst h
        exact ⟨rfl, Or.inr rfl, Or.inr (Or.inr rfl), Or.inl rfl⟩
  | quit => simp [handle_event] at h
  | other =>
    simp only [handle_event, Option.some.injEq] at h
    subst h
    exact ⟨rfl, Or.inl ⟨rfl, rfl⟩, Or.inr (Or.inr rfl), Or.inl rfl⟩

theorem handle_event_step_pos (game game1 : Game) (e : Event)
    (h : handle_event game e = some game1) (hs : 0 < game.step) : 0 < game1.step := by
  obtain ⟨_, _, h3, _⟩ := handle_event_cases game game1 e h
  rcases h3 with h3 | h3 | h3 <;> rw [h3] <;> linarith

theorem input_step_pos (events : List Event) :
    ∀ game game1 : Game, input game events = some game1 → 0 < game.step → 0 < game1.step := by
  induction events with
  | nil =>
    intro game game1 h hs
    simp only [input, Option.some.injEq] at h
    subst h
    exact hs
  | cons e es ih =>
    intro game game1 h hs
    simp only [input] at h
    cases he : handle_event game e with
    | none => rw [he] at h; simp at h
    | some game2 =>
      rw [he] at h
      exact ih game2 game1 h (handle_event_step_pos game game2 e he hs)

theorem handle_event_palette_ok (game game1 : Game) (e : Event)
    (h : handle_event game e = some game1) (hp : game.palette_ok) : game1.palette_ok := by
  obtain ⟨h1, h2, _, _⟩ := handle_event_cases game game1 e h
  unfold Game.palette_ok at hp ⊢
  rcases h2 with ⟨h2, h3⟩ | h2
  · rw [h1, h2, h3]; exact hp
  · right; rw [h2]; decide

theorem input_palette_ok (events : List Event) :
    ∀ game game1 : Game, input game events = some game1 → game.palette_ok →
      game1.palette_ok := by
  induction events with
  | nil =>
    intro game game1 h hp
    simp only [input, Option.some.injEq] at h
    subst h
    exact hp
  | cons e es ih =>
    intro game game1 h hp
    simp only [input] at h
    cases he : handle_event game e with
    | none => rw [he] at h; simp at h
    | some game2 =>
      rw [he] at h
      exact ih game2 game1 h (handle_event_palette_ok game game2 e he hp)

theorem bound_ok_mono (game : Game) (a b : Nat) (hab : b ≤ a) (h : game.bound_ok a) :
    game.bound_ok b := by
  unfold Game.bound_ok at h ⊢
  refine ⟨h.1, ?_⟩
  have := h.2
  omega

theorem handle_event_bound_ok (game game1 : Game) (e : Event) (budget : Nat)
    (h : handle_event game e = some game1) (hb : game.bound_ok (budget + 1)) :
    game1.bound_ok budget := by
  obtain ⟨_, _, _, h4⟩ := handle_event_cases game game1 e h
  unfold Game.bound_ok at hb ⊢
  obtain ⟨hb1, hb2⟩ := hb
  have hU : (2 : Nat) ^ 64 = 18446744073709551616 := by norm_num
  rw [hU] at hb2 ⊢
  rcases h4 with h4 | ⟨h4, h5⟩ | ⟨h4, h5⟩ | ⟨h4, h5⟩ | ⟨h4, h5⟩
  · rw [h4]; exact ⟨hb1, by omega⟩
  · rw [h5]; exact ⟨by omega, by omega⟩
  · rw [h5]; exact ⟨Or.inl rfl, by omega⟩
  · rw [h5]; exact ⟨Or.inr ⟨by decide, by decide⟩, by omega⟩
  · have e1 : add64 game.current_it 100 = game.current_it + 100 := by
      unfold add64 U64
      rw [hU]
      omega
    rw [h5, e1]
    exact ⟨by omega, by omega⟩

theorem input_bound_ok (events : List Event) :
    ∀ (game game1 : Game) (budget : Nat), input game events = some game1 →
      game.bound_ok (events.length + budget) → game1.bound_ok budget := by
  induction events with
  | nil =>
    intro game game1 budget h hb
    simp only [input, Option.some.injEq] at h
    subst h
    simpa using hb
  | cons e es ih =>
    intro game game1 budget h hb
    simp only [input] at h
    cases he : handle_event game e with
    | none => rw [he] at h; simp at h
    | some game2 =>
      rw [he] at h
      have e1 : (e :: es).length + budget = (es.length + budget) + 1 := by
        simp only [List.length_cons]; omega
      rw [e1] at hb
      exact ih game2 game1 budget h (handle_event_bound_ok game game2 e _ he hb)


/-! ## Invariants of the frame pipeline -/

/-- What one call of `update` does: it only runs `input`, or it renders the state `p`
that has the bound and step of the state before and a palette of the right length. -/
theorem update_cases (initialized : Bool) (game : Game) (events : List Event) (t : Tick)
    (h : update initialized game events = some t) :
    (game.rendered ≠ 0 ∧ input game events = some t.game ∧ t.render = none) ∨
    (game.rendered = 0 ∧ ∃ p, t.render = some (p, render_threaded screen p 0) ∧
      p.current_it = game.current_it ∧ p.step = game.step ∧
      (game.palette_ok → p.colors.length = p.current_it) ∧
      t.game.colors = p.colors ∧ t.game.current_it = p.current_it ∧ t.game.step = p.step) := by
  unfold update at h
  by_cases hr : game.rendered ≠ 0
  · left
    rw [if_pos hr] at h
    cases hi : input game events with
    | none => rw [hi] at h; simp at h
    | some game1 =>
      rw [hi] at h
      simp only [Option.some.injEq] at h
      subst h
      exact ⟨hr, rfl, rfl⟩
  · right
    rw [if_neg hr] at h
    simp only [Option.some.injEq] at h
    subst h
    refine ⟨not_not.1 hr, _, rfl, ?_⟩
    by_cases hm : game.remake_colors ≠ 0
    · rw [if_pos hm]
      have hl := make_colors_length initialized game
      refine ⟨hl.2, ?_, fun _ => ?_, rfl, rfl, rfl⟩
      · cases initialized <;> rfl
      · show (make_colors initialized game).2.colors.length
          = (make_colors initialized game).2.current_it
        rw [hl.1, hl.2]
    · rw [if_neg hm]
      refine ⟨rfl, rfl, fun hp => ?_, rfl, rfl, rfl⟩
      rcases hp with hp | hp
      · exact hp
      · exact absurd hp hm

theorem update_palette_ok (initialized : Bool) (game : Game) (events : List Event) (t : Tick)
    (h : update initialized game events = some t) (hp : game.palette_ok) :
    t.game.palette_ok := by
  rcases update_cases initialized game events t h with ⟨_, h2, _⟩ | ⟨_, p, _, _, _, h4, h5, h6, _⟩
  · exact input_palette_ok events game t.game h2 hp
  · left
    rw [h5, h6]
    exact h4 hp

theorem update_bound_ok (initialized : Bool) (game : Game) (events : List Event) (t : Tick)
    (budget : Nat) (h : update initialized game events = some t)
    (hb : game.bound_ok (events.length + budget)) : t.game.bound_ok budget := by
  rcases update_cases initialized game events t h with ⟨_, h2, _⟩ | ⟨_, p, _, h3, _, _, _, h6, _⟩
  · exact input_bound_ok events game t.game budget h2 hb
  · have := bound_ok_mono game _ budget (by omega) hb
    unfold Game.bound_ok at this ⊢
    rw [h6, h3]
    exact this

theorem update_step_pos (initialized : Bool) (game : Game) (events : List Event) (t : Tick)
    (h : update initialized game events = some t) (hs : 0 < game.step) : 0 < t.game.step := by
  rcases update_cases initialized game events t h with ⟨_, h2, _⟩ | ⟨_, p, _, _, h4, _, _, _, h7⟩
  · exact input_step_pos events game t.game h2 hs
  · rw [h7, h4]; exact hs

/-- Every render pass of the main loop, started in a state whose palette is in order, is
called with a palette as long as the bound. -/
theorem main_loop_palette (batches : List (List Event)) :
    ∀ (initialized : Bool) (game : Game), game.palette_ok →
      ∀ t, t ∈ main_loop initialized game batches → ∀ p r, t.render = some (p, r) →
        p.colors.length = p.current_it ∧ r = render_threaded screen p 0 := by
  induction batches with
  | nil => intro initialized game _ t ht; simp [main_loop] at ht
  | cons events rest ih =>
    intro initialized game hp t ht p r hr
    simp only [main_loop] at ht
    cases hu : update initialized game events with
    | none => rw [hu] at ht; simp at ht
    | some t1 =>
      rw [hu] at ht
      rcases List.mem_cons.1 ht with rfl | hin
      · rcases update_cases initialized game events t hu with ⟨_, _, h3⟩ | ⟨_, q, h2, _, _, h5, _⟩
        · rw [h3] at hr; simp at hr
        · rw [h2] at hr
          simp only [Option.some.injEq, Prod.mk.injEq] at hr
          obtain ⟨rfl, rfl⟩ := hr
          exact ⟨h5 hp, rfl⟩
      · exact ih t1.initialized t1.game (update_palette_ok initialized game events t1 hu hp)
          t hin p r hr

/-- With enough budget for all the events of the run, the bound at every render pass is
10 or a positive multiple of 100. -/
theorem main_loop_bound (batches : List (List Event)) :
    ∀ (initialized : Bool) (game : Game) (budget : Nat),
      game.bound_ok ((batches.map List.length).sum + budget) →
      ∀ t, t ∈ main_loop initialized game batches →
        t.game.bound_ok budget ∧ ∀ p r, t.render = some (p, r) → p.bound_ok budget := by
  induction batches with
  | nil => intro initialized game budget _ t ht; simp [main_loop] at ht
  | cons events rest ih =>
    intro initialized game budget hb t ht
    simp only [main_loop] at ht
    cases hu : update initialized game events with
    | none => rw [hu] at ht; simp at ht
    | some t1 =>
      rw [hu] at ht
      have e1 : ((events :: rest).map List.length).sum + budget
          = events.length + ((rest.map List.length).sum + budget) := by
        simp only [List.map_cons, List.sum_cons]; omega
      rw [e1] at hb
      have hb1 := update_bound_ok initialized game events t1 _ hu hb
      rcases List.mem_cons.1 ht with rfl | hin
      · refine ⟨bound_ok_mono _ _ budget (by omega) hb1, ?_⟩
        intro p r hr
        rcases update_cases initialized game events t hu with ⟨_, _, h3⟩ | ⟨_, q, h2, h3, _, _, _, _⟩
        · rw [h3] at hr; simp at hr
        · rw [h2] at hr
          simp only [Option.some.injEq, Prod.mk.injEq] at hr
          obtain ⟨rfl, _⟩ := hr
          have := bound_ok_mono game _ budget (by omega) hb
          unfold Game.bound_ok at this ⊢
          rw [h3]
          exact this
      · exact ih t1.initialized t1.game budget hb1 t hin

theorem main_loop_step_pos (batches : List (List Event)) :
    ∀ (initialized : Bool) (game : Game), 0 < game.step →
      ∀ t, t ∈ main_loop initialized game batches → 0 < t.game.step := by
  induction batches with
  | nil => intro initialized game _ t ht; simp [main_loop] at ht
  | cons events rest ih =>
    intro initialized game hs t ht
    simp only [main_loop] at ht
    cases hu : update initialized game events with
    | none => rw [hu] at ht; simp at ht
    | some t1 =>
      rw [hu] at ht
      have h1 := update_step_pos initialized game events t1 hu hs
      rcases List.mem_cons.1 ht with rfl | hin
      · exact h1
      · exact ih t1.initialized t1.game h1 t hin

theorem init_facts :
    init.2.step = 2 / 720 ∧ init.2.current_it = 100 ∧ init.2.colors.length = 100 ∧
    init.2.rendered = 0 ∧ init.2.remake_colors = 0 ∧ init.1 = true := by
  refine ⟨?_, rfl, ?_, rfl, rfl, rfl⟩
  · simp [init, make_colors, init_game, SCREEN_HEIGHT]
  · simp [init, make_colors, init_game]

theorem init_bound_ok (budget : Nat) (h : 100 * (budget + 1) < 2 ^ 64) :
    init.2.bound_ok budget := by
  unfold Game.bound_ok
  rw [init_facts.2.1]
  exact ⟨Or.inr ⟨by decide, by decide⟩, by omega⟩


/-! ## The step and the bound in reachable states -/

/-- C16: `step > 0` holds in the initial state (`step = 2/720`) and is preserved by every
input event, hence holds after every sequence of events applied from the initial state and
after every tick of the main loop, in exact arithmetic. -/
theorem C16_step_positive (events : List Event) (batches : List (List Event)) :
    init.2.step = 2 / 720 ∧ 0 < init.2.step ∧
    (∀ (game game1 : Game) (e : Event), 0 < game.step → handle_event game e = some game1 →
      0 < game1.step) ∧
    (∀ game1, input init.2 events = some game1 → 0 < game1.step) ∧
    (∀ t, t ∈ main_loop init.1 init.2 batches → 0 < t.game.step) := by
  have h0 : 0 < init.2.step := by rw [init_facts.1]; norm_num
  refine ⟨init_facts.1, h0, ?_, ?_, ?_⟩
  · intro game game1 e hs h
    exact handle_event_step_pos game game1 e h hs
  · intro game1 h
    exact input_step_pos events init.2 game1 h h0
  · intro t ht
    exact main_loop_step_pos batches init.1 init.2 h0 t ht

theorem C16_step_positive_witness :
    0 < init.2.step ∧ 0 < init.2.step / 2 :=
  ⟨(C16_step_positive [] []).2.1,
    (C16_step_positive [] []).2.2.1 init.2 _ (Event.mouseButtonDown SDL_BUTTON_LEFT 640 360)
      (C16_step_positive [] []).2.1 (handle_event_left init.2 640 360)⟩

/-- The bound after `k + 1` increase-detail key events from a bound that is a multiple
of 4 (so not 10): 100 is added each time, modulo `2^64`. -/
theorem input_replicate_m_succ (game : Game) (k : Nat) (h4 : game.current_it % 4 = 0) :
    ∃ game1, input game (List.replicate (k + 1) (Event.keyDown SDLK_m)) = some game1 ∧
      game1.current_it = (game.current_it + 100 * (k + 1)) % U64 ∧
      game1.rendered = 0 ∧ game1.remake_colors = 1 := by
  have h10 : ¬ game.current_it = 10 := by omega
  simp only [List.replicate_succ, input, handle_event_m, if_neg h10]
  have hU : U64 = 18446744073709551616 := by norm_num [U64]
  have h1 : add64 game.current_it 100 % 4 = 0 := by
    simp only [add64, hU]; omega
  have h2 : add64 game.current_it 100 < U64 := by
    simp only [add64, hU]; omega
  obtain ⟨game1, e1, e2, e3, e4⟩ := input_replicate_m k { game with
      current_it := add64 game.current_it 100
      remake_colors := 1
      rendered := 0 } h1 h2 rfl rfl
  refine ⟨game1, e1, ?_, e3, e4⟩
  rw [e2]
  simp only [add64, hU]
  omega

/-- C17, as stated, fails: `current_it` is a `uint64_t`, and 184467440737095516
increase-detail key events from the initial bound 100 wrap it around to 84, which is
neither 10 nor a multiple of 100. -/
theorem C17_counterexample :
    (input init.2 (List.replicate 184467440737095516 (Event.keyDown SDLK_m))).map
      Game.current_it = some 84 ∧
    (84 : Nat) ≠ 10 ∧ (84 : Nat) % 100 ≠ 0 := by
  refine ⟨?_, by decide, by decide⟩
  obtain ⟨game1, e1, e2, _, _⟩ :=
    input_replicate_m_succ init.2 184467440737095515 (by rw [init_facts.2.1])
  have e : (184467440737095515 + 1 : Nat) = 184467440737095516 := by norm_num
  rw [e] at e1 e2
  rw [e1, Option.map_some', e2, init_facts.2.1]
  norm_num [U64]

/-- C17 (amended): for every finite sequence of fewer than 184467440737095516 input events
(`100 * (length + 1) < 2^64`, so that the `uint64_t` bound cannot wrap around) applied
from the initial state, the bound `current_it` is 10 or a positive multiple of 100; it is
not 0 and not below 10, and the evaluator's decrement does not underflow: the loop is left
with a count of at least 1 and the index is the count minus one. -/
theorem C17_bound_values (events : List Event) (game1 : Game)
    (hfit : 100 * (events.length + 1) < 2 ^ 64) (h : input init.2 events = some game1) :
    (game1.current_it = 10 ∨ (game1.current_it % 100 = 0 ∧ 0 < game1.current_it)) ∧
    game1.current_it ≠ 0 ∧ 10 ≤ game1.current_it ∧
    ∀ x y : ℚ, 1 ≤ escape_count x y game1.current_it ∧
      escape_index x y game1.current_it = escape_count x y game1.current_it - 1 := by
  have hb := input_bound_ok events init.2 game1 0 h (init_bound_ok _ hfit)
  obtain ⟨hb1, _⟩ := hb
  have h10 : 10 ≤ game1.current_it := by omega
  refine ⟨by omega, by omega, h10, ?_⟩
  intro x y
  exact ⟨(escape_count_bounds x y _ (by omega)).1, escape_index_eq x y _ (by omega)⟩

theorem C17_bound_values_witness :
    (100 * (([Event.keyDown SDLK_n, Event.keyDown SDLK_m] : List Event).length + 1) < 2 ^ 64 ∧
      input init.2 [Event.keyDown SDLK_n, Event.keyDown SDLK_m]
        = some { init.2 with current_it := 100, remake_colors := 1, rendered := 0 }) ∧
    ((100 = 10 ∨ (100 % 100 = 0 ∧ 0 < 100)) ∧
    100 ≠ 0 ∧ 10 ≤ 100 ∧
    ∀ x y : ℚ, 1 ≤ escape_count x y 100 ∧
      escape_index x y 100 = escape_count x y 100 - 1) :=
  ⟨⟨by norm_num, rfl⟩,
    C17_bound_values [Event.keyDown SDLK_n, Event.keyDown SDLK_m]
      { init.2 with current_it := 100, remake_colors := 1, rendered := 0 }
      (by norm_num) rfl⟩


/-! ## Palette and bound at the render passes -/

theorem render_row_none (game : Game) (y : ℚ) (cols : Nat) (x : ℚ) (p : Nat)
    (hc : game.colors = []) (hcols : 0 < cols) : render_row game y cols x p = none := by
  obtain ⟨c, rfl⟩ : ∃ c, cols = c + 1 := ⟨cols - 1, by omega⟩
  simp only [render_row, hc, List.getElem?_nil]

theorem render_rows_none (sc : Screen) (args : ThreadArg) (rows : Nat) (y : ℚ) (p : Nat)
    (hc : args.game.colors = []) (hw : 0 < sc.width) (hrows : 0 < rows) :
    render_rows sc args rows y p = none := by
  obtain ⟨r, rfl⟩ : ∃ r, rows = r + 1 := ⟨rows - 1, by omega⟩
  simp only [render_rows, render_row_none args.game y sc.width _ p hc hw]

/-- With an empty palette the first worker reads outside the palette. -/
theorem render_threaded_none (game : Game) (pixels : Nat) (hc : game.colors = []) :
    render_threaded screen game pixels = none := by
  have hb : bands screen game pixels =
      ⟨game, pixels, ⟨game.topleft_corner.x, game.topleft_corner.y⟩, 120⟩ ::
        thread_args screen game 5 1 120 (game.topleft_corner.y + game.step * ((120 : Nat) : ℚ))
          (pixels + 120 * screen.width * 3) := rfl
  unfold render_threaded
  rw [hb]
  simp only [run_threads, render_thread]
  rw [render_rows_none screen _ 120 _ _ hc (by decide) (by decide)]

theorem update_render (initialized : Bool) (game : Game) (events : List Event)
    (hr : game.rendered = 0) (hm : game.remake_colors ≠ 0) :
    update initialized game events =
      some ⟨(make_colors initialized game).1,
        { (make_colors initialized game).2 with remake_colors := 0, rendered := 1 },
        some ({ (make_colors initialized game).2 with remake_colors := 0 },
          render_threaded screen { (make_colors initialized game).2 with remake_colors := 0 } 0)⟩ := by
  unfold update
  rw [if_neg (by rw [hr]; decide), if_pos hm]

theorem update_render_keep (initialized : Bool) (game : Game) (events : List Event)
    (hr : game.rendered = 0) (hm : game.remake_colors = 0) :
    update initialized game events =
      some ⟨initialized, { game with rendered := 1 },
        some (game, render_threaded screen game 0)⟩ := by
  unfold update
  rw [if_neg (by rw [hr]; decide), if_neg (by rw [hm]; decide)]

theorem update_input (initialized : Bool) (game game1 : Game) (events : List Event)
    (hr : game.rendered ≠ 0) (h : input game events = some game1) :
    update initialized game events = some ⟨initialized, game1, none⟩ := by
  unfold update
  rw [if_pos hr, h]

theorem main_loop_cons (initialized : Bool) (game : Game) (events : List Event)
    (rest : List (List Event)) (t : Tick) (h : update initialized game events = some t) :
    main_loop initialized game (events :: rest) = t :: main_loop t.initialized t.game rest := by
  simp only [main_loop, h]

/-- C11, as stated, fails: after the first render, 4611686018427387903 (`2^62 - 1`)
increase-detail key events delivered in one tick wrap the `uint64_t` bound from 100 around
to 0; at the next render pass the palette has length 0, equal to the bound, and the
workers' palette read is out of bounds (`render_threaded` does not return a frame). The
list gives, for the three ticks, the bound and palette length at the render pass and
whether all palette reads were in bounds (`none`: the tick did not render). -/
theorem C11_counterexample :
    (main_loop init.1 init.2
        [[], List.replicate 4611686018427387903 (Event.keyDown SDLK_m), []]).map
      (fun t => t.render.map (fun pr => (pr.1.current_it, pr.1.colors.length, pr.2.isSome)))
      = [some (100, 100, true), none, some (0, 0, false)] := by
  have hwf : init.2.wf := ⟨by rw [init_facts.2.2.1, init_facts.2.1],
    by rw [init_facts.2.1]; decide⟩
  have hu0 := update_render_keep init.1 init.2 [] init_facts.2.2.2.1 init_facts.2.2.2.2.1
  obtain ⟨game2, e1, e2, e3, e4⟩ :=
    input_replicate_m_succ { init.2 with rendered := 1 } 4611686018427387902
      (by show init.2.current_it % 4 = 0; rw [init_facts.2.1])
  have e : (4611686018427387902 + 1 : Nat) = 4611686018427387903 := by norm_num
  rw [e] at e1 e2
  have e0 : game2.current_it = 0 := by
    rw [e2]
    show (init.2.current_it + 100 * 4611686018427387903) % U64 = 0
    rw [init_facts.2.1]
    norm_num [U64]
  have hu1 := update_input init.1 { init.2 with rendered := 1 } game2 _
    (by show (1 : Int) ≠ 0; decide) e1
  have hu2 := update_render init.1 game2 [] e3 (by rw [e4]; decide)
  have hcol : (make_colors init.1 game2).2.colors = [] :=
    List.length_eq_zero.1 (by rw [(make_colors_length init.1 game2).1, e0])
  have hnone : render_threaded screen
      { (make_colors init.1 game2).2 with remake_colors := 0 } 0 = none :=
    render_threaded_none _ 0 hcol
  have hcur : (make_colors init.1 game2).2.current_it = 0 := by
    rw [(make_colors_length init.1 game2).2, e0]
  rw [main_loop_cons _ _ _ _ _ hu0, main_loop_cons _ _ _ _ _ hu1, main_loop_cons _ _ _ _ _ hu2]
  simp only [main_loop, List.map_cons, List.map_nil, Option.map_some', Option.map_none']
  rw [render_threaded_eq screen init.2 0 hwf, hnone, hcur, hcol,
    init_facts.2.1, init_facts.2.2.1]
  rfl

/-- C11 (amended): for every finite sequence of ticks of `update` from the initial state,
with any events delivered at each tick, at every render pass (every call of
`render_threaded` from `update`) the palette length equals the current iteration bound;
every palette lookup made by the workers is in bounds (`render_threaded` returns a frame)
when the bound is at least 1, which is the case (the bound is then at least 10) whenever
fewer than 184467440737095516 events are delivered in total, so that the `uint64_t` bound
cannot wrap around to 0. -/
theorem C11_palette_matches_bound (batches : List (List Event)) (t : Tick) (p : Game)
    (r : Option (List (List Write))) (ht : t ∈ main_loop init.1 init.2 batches)
    (hr : t.render = some (p, r)) :
    p.colors.length = p.current_it ∧ r = render_threaded screen p 0 ∧
    (1 ≤ p.current_it → ∃ wss, r = some wss) ∧
    (100 * ((batches.map List.length).sum + 1) < 2 ^ 64 →
      10 ≤ p.current_it ∧ ∃ wss, r = some wss) := by
  have hp0 : init.2.palette_ok := Or.inl (by rw [init_facts.2.2.1, init_facts.2.1])
  obtain ⟨h1, h2⟩ := main_loop_palette batches init.1 init.2 hp0 t ht p r hr
  have hsome : 1 ≤ p.current_it → ∃ wss, r = some wss := by
    intro h
    exact ⟨_, by rw [h2]; exact render_threaded_eq screen p 0 ⟨h1, h⟩⟩
  refine ⟨h1, h2, hsome, ?_⟩
  intro hfit
  have hb := (main_loop_bound batches init.1 init.2 0 (init_bound_ok _ hfit) t ht).2 p r hr
  obtain ⟨hb1, _⟩ := hb
  have h10 : 10 ≤ p.current_it := by omega
  exact ⟨h10, hsome (by omega)⟩


theorem C11_palette_matches_bound_witness :
    ((⟨init.1, { init.2 with rendered := 1 },
        some (init.2, render_threaded screen init.2 0)⟩ : Tick) ∈ main_loop init.1 init.2 [[]] ∧
      (⟨init.1, { init.2 with rendered := 1 },
        some (init.2, render_threaded screen init.2 0)⟩ : Tick).render
          = some (init.2, render_threaded screen init.2 0)) ∧
    (init.2.colors.length = init.2.current_it ∧
    render_threaded screen init.2 0 = render_threaded screen init.2 0 ∧
    (1 ≤ init.2.current_it → ∃ wss, render_threaded screen init.2 0 = some wss) ∧
    (100 * ((([[]] : List (List Event)).map List.length).sum + 1) < 2 ^ 64 →
      10 ≤ init.2.current_it ∧ ∃ wss, render_threaded screen init.2 0 = some wss)) :=
  ⟨⟨by
      rw [main_loop_cons _ _ _ _ _
        (update_render_keep init.1 init.2 [] init_facts.2.2.2.1 init_facts.2.2.2.2.1)]
      exact List.mem_cons_self _ _, rfl⟩,
    C11_palette_matches_bound [[]] _ init.2 _
      (by
        rw [main_loop_cons _ _ _ _ _
          (update_render_keep init.1 init.2 [] init_facts.2.2.2.1 init_facts.2.2.2.2.1)]
        exact List.mem_cons_self _ _)
      rfl⟩

/-! ## Palette: the entries below the last one -/

theorem to_byte_255 : to_byte 255 = 255 := by
  norm_num [to_byte, trunc]
  rfl

/-- At full saturation and value every hue gives a colour with a channel equal to 255 and
a channel equal to 0. -/
theorem hsv_to_rgb_full (h : ℚ) :
    ((hsv_to_rgb h 1 1).r = 255 ∨ (hsv_to_rgb h 1 1).g = 255 ∨ (hsv_to_rgb h 1 1).b = 255) ∧
    ((hsv_to_rgb h 1 1).r = 0 ∨ (hsv_to_rgb h 1 1).g = 0 ∨ (hsv_to_rgb h 1 1).b = 0) := by
  have e1 : ((1 : ℚ) * 1 + (1 - 1 * 1)) * 255 = 255 := by norm_num
  have e0 : ((0 : ℚ) + (1 - 1 * 1)) * 255 = 0 := by norm_num
  unfold hsv_to_rgb
  split_ifs <;> simp only [e1, e0, to_byte_255, to_byte_zero] <;> simp

theorem make_color_inner (n i : Nat) (hi : i < n - 1) :
    make_color n i = hsv_to_rgb ((1 - (i : ℚ) / (n : ℚ)) * 255) 1 1 := by
  have hne : ¬ (i = n - 1) := by omega
  unfold make_color
  simp only [if_neg hne]

theorem make_colors_getElem (initialized : Bool) (game : Game) (i : Nat)
    (hi : i < game.current_it) :
    (make_colors initialized game).2.colors[i]? = some (make_color game.current_it i) := by
  cases initialized <;> simp [make_colors, List.getElem?_map, List.getElem?_range hi]

/-- C20: for every bound `n ≥ 2` and every index `i < n - 1`, the palette entry `i` built
by `make_colors` is `hsv_to_rgb` of hue `(1 - i/n) * 255`, saturation 1, value 1, and has
a channel equal to 255 and a channel equal to 0; so it is not black, and in the palette
black is the entry of index `n - 1` and of no other index. -/
theorem C20_inner_entries_not_black (initialized : Bool) (game : Game) (i : Nat)
    (hn : 2 ≤ game.current_it) (hi : i < game.current_it - 1) :
    (make_colors initialized game).2.colors[i]? =
      some (hsv_to_rgb ((1 - (i : ℚ) / (game.current_it : ℚ)) * 255) 1 1) ∧
    (∃ color, (make_colors initialized game).2.colors[i]? = some color ∧
      (color.r = 255 ∨ color.g = 255 ∨ color.b = 255) ∧
      (color.r = 0 ∨ color.g = 0 ∨ color.b = 0) ∧ color ≠ ⟨0, 0, 0⟩) ∧
    (∀ j, j < game.current_it →
      ((make_colors initialized game).2.colors[j]? = some ⟨0, 0, 0⟩ ↔
        j = game.current_it - 1)) := by
  have hnot : ∀ k, k < game.current_it - 1 → make_color game.current_it k ≠ ⟨0, 0, 0⟩ := by
    intro k hk hblack
    have h := (hsv_to_rgb_full ((1 - (k : ℚ) / (game.current_it : ℚ)) * 255)).1
    rw [← make_color_inner _ k hk, hblack] at h
    simp at h
  have hget := make_colors_getElem initialized game i (by omega)
  refine ⟨by rw [hget, make_color_inner _ i hi], ⟨_, hget, ?_, ?_, hnot i hi⟩, ?_⟩
  · rw [make_color_inner _ i hi]
    exact (hsv_to_rgb_full _).1
  · rw [make_color_inner _ i hi]
    exact (hsv_to_rgb_full _).2
  · intro j hj
    rw [make_colors_getElem initialized game j hj]
    constructor
    · intro h
      by_contra hne
      exact hnot j (by omega) (Option.some.inj h)
    · intro h
      rw [h, make_color_last]

theorem C20_inner_entries_not_black_witness :
    (2 ≤ init_game.current_it ∧ 3 < init_game.current_it - 1) ∧
    ((make_colors false init_game).2.colors[3]? =
      some (hsv_to_rgb ((1 - ((3 : Nat) : ℚ) / (init_game.current_it : ℚ)) * 255) 1 1) ∧
    (∃ color, (make_colors false init_game).2.colors[3]? = some color ∧
      (color.r = 255 ∨ color.g = 255 ∨ color.b = 255) ∧
      (color.r = 0 ∨ color.g = 0 ∨ color.b = 0) ∧ color ≠ ⟨0, 0, 0⟩) ∧
    (∀ j, j < init_game.current_it →
      ((make_colors false init_game).2.colors[j]? = some ⟨0, 0, 0⟩ ↔
        j = init_game.current_it - 1))) :=
  ⟨⟨by decide, by decide⟩, C20_inner_entries_not_black false init_game 3 (by decide) (by decide)⟩

end Mandelbrot
